import Mathlib

/-!
Verification development for the octopus variant-calling core.

This file gives a shallow embedding, in Lean 4, of the three core components
described by the repository specification:

* the de Bruijn `Assembler` over a k-mer graph
  (`src/core/tools/vargen/utils/assembler.cpp`),
* the `HaplotypeGenerator` (same file, second translation unit),
* the `ReadManager` (`src/io/read/read_manager.cpp`),

together with theorems settling the frozen claims C1 .. C10.

Modelling conventions:

* The boost graph `adjacency_list<listS, listS, bidirectionalS, ...>` is
  embedded as insertion-ordered lists of vertices and edges.  Parallel edges
  are representable (the source creates them, e.g. repeated reference kmers).
  `boost::edges(g)` iterates per-vertex out-edge lists in vertex insertion
  order, which `boostEdges` reproduces.
* Machine integers are embedded as `Nat`; no quantity in the theorems below
  approaches an overflow boundary.
* The edge field `transition_score` is an f32 in the source, computed as
  `|log(weight/total)|` with special cases for zero weights.  Exact binary
  floating point logarithms do not embed in an executable shallow embedding,
  so all score-dependent definitions are parameterised by a `ScoreModel`,
  whose `absLog` field stands for the `|log(w/W)|` branch.  Concrete runs
  below only ever evaluate `absLog` at arguments `w = W` (where the source
  value is `|log 1| = 0` exactly, in every floating point format), so the
  instantiation `absLog _ _ = 0` agrees with the source on every score the
  runs compute.
* C++ `assert` is modelled as a no-op (release semantics).  Places where the
  source has undefined behaviour (e.g. walking a broken reference path) are
  totalised with fuel and documented at the definition.
-/

/-! ## Generic list helpers -/

/-- Insertion of an element into a list sorted by `le`, keeping stability. -/
def sortInsert {α : Type} (le : α → α → Bool) (x : α) : List α → List α
  | [] => [x]
  | y :: ys => if le x y then x :: y :: ys else y :: sortInsert le x ys

/-- Structural insertion sort (executable stand-in for `std::sort`; produces a
sorted permutation, which is all the source relies on). -/
def sortBy {α : Type} (le : α → α → Bool) : List α → List α
  | [] => []
  | x :: xs => sortInsert le x (sortBy le xs)

/-- Adjacent deduplication in the style of `std::unique`: from each run of
elements equivalent (under `eqv`) to the last kept element, only the first is
kept. -/
def uniqueAdj {α : Type} (eqv : α → α → Bool) : List α → List α
  | [] => []
  | x :: xs => x :: uniqueAdjGo eqv x xs
where
  uniqueAdjGo (eqv : α → α → Bool) (kept : α) : List α → List α
  | [] => []
  | y :: ys => if eqv kept y then uniqueAdjGo eqv kept ys else y :: uniqueAdjGo eqv y ys

/-- Lexicographic strict comparison of char lists (`std::lexicographical_compare`). -/
def charListLt : List Char → List Char → Bool
  | [], [] => false
  | [], _ :: _ => true
  | _ :: _, [] => false
  | a :: as, b :: bs => if a < b then true else if b < a then false else charListLt as bs

/-! ## Assembler: data model

Vertices carry `{index, kmer, is_reference}` (`GraphNode`), edges carry
`{weight, is_reference, transition_score}` (`GraphEdge`).  The `vertex_cache_`
of the source maps each kmer to its unique vertex; here it is recovered by
lookup, which is equivalent because the source only ever inserts a vertex for
a kmer that is not yet cached and erases cache entries together with
vertices. -/

structure AsmVert where
  vid : ℕ
  index : ℕ
  kmer : List Char
  is_reference : Bool
  deriving DecidableEq, Repr

structure AsmEdge (S : Type) where
  eid : ℕ
  src : ℕ
  dst : ℕ
  weight : ℕ
  is_reference : Bool
  transition_score : S
  deriving DecidableEq, Repr

/-- Score semantics parameter: the type of `GraphEdge::transition_score`
(an f32 in the source) together with the operations the algorithms use on it.
`absLog w W` stands for the source's `std::abs(std::log(w / W))` branch. -/
structure ScoreModel (S : Type) where
  zero : S
  maxScore : S
  blockedScore : S
  add : S → S → S
  lt : S → S → Bool
  le : S → S → Bool
  beq : S → S → Bool
  absLog : ℕ → ℕ → S

/-- Assembler state: kmer size, fresh-id counters, the kmer graph, the
reference kmer sequence and the reference head position. -/
structure Asm (S : Type) where
  k : ℕ
  nextVid : ℕ
  nextEid : ℕ
  verts : List AsmVert
  edges : List (AsmEdge S)
  reference_kmers : List (List Char)
  reference_head_position : ℕ
  deriving DecidableEq, Repr

namespace Asm

variable {S : Type}

/-- Fresh assembler with kmer size `k` (constructor `Assembler(kmer_size)`). -/
def mk0 (k : ℕ) : Asm S :=
  { k := k, nextVid := 0, nextEid := 0, verts := [], edges := [],
    reference_kmers := [], reference_head_position := 0 }

/-- Modelled from the spec (invariant A3; `utils::is_canonical_dna`, whose
source is not in the repository slice): a kmer is canonical iff every base is
one of A, C, G, T. -/
def isCanonicalDna (km : List Char) : Bool :=
  km.all (fun c => c = 'A' || c = 'C' || c = 'G' || c = 'T')

def numVertices (a : Asm S) : ℕ := a.verts.length

def numEdges (a : Asm S) : ℕ := a.edges.length

/-- Number of cached kmers (`num_kmers`, the size of `vertex_cache_`). -/
def num_kmers (a : Asm S) : ℕ := a.verts.length

/-- Whether the graph is empty (`is_empty`, i.e. the vertex cache is empty). -/
def is_empty (a : Asm S) : Bool := a.verts.isEmpty

def findVert (a : Asm S) (v : ℕ) : Option AsmVert :=
  a.verts.find? (fun n => n.vid = v)

/-- Kmer attached to a vertex (`kmer_of`). -/
def kmer_of (a : Asm S) (v : ℕ) : List Char :=
  ((a.findVert v).map AsmVert.kmer).getD []

/-- Whether a kmer is in the vertex cache (`contains_kmer`). -/
def containsKmer (a : Asm S) (km : List Char) : Bool :=
  (a.verts.find? (fun n => n.kmer = km)).isSome

/-- Cache lookup `vertex_cache_.at(kmer)`; total with a junk default, which is
only reachable where the source would throw `std::out_of_range`. -/
def cacheGet (a : Asm S) (km : List Char) : ℕ :=
  ((a.verts.find? (fun n => n.kmer = km)).map AsmVert.vid).getD 0

/-- Out-edge list of a vertex, in insertion order (boost `out_edges`). -/
def outEdges (a : Asm S) (v : ℕ) : List (AsmEdge S) :=
  a.edges.filter (fun e => e.src = v)

/-- In-edge list of a vertex, in insertion order (boost `in_edges`). -/
def inEdges (a : Asm S) (v : ℕ) : List (AsmEdge S) :=
  a.edges.filter (fun e => e.dst = v)

def outDegree (a : Asm S) (v : ℕ) : ℕ := (a.outEdges v).length

def inDegree (a : Asm S) (v : ℕ) : ℕ := (a.inEdges v).length

/-- Total degree (boost `degree`). -/
def degree (a : Asm S) (v : ℕ) : ℕ := a.outDegree v + a.inDegree v

/-- Edge iteration in boost order: per-vertex out-edge lists concatenated in
vertex insertion order. -/
def boostEdges (a : Asm S) : List (AsmEdge S) :=
  a.verts.flatMap (fun n => a.outEdges n.vid)

/-- First `u → v` edge, if any (`boost::edge(u, v, g)`). -/
def edgeBetween (a : Asm S) (u v : ℕ) : Option (AsmEdge S) :=
  a.edges.find? (fun e => e.src = u && e.dst = v)

/-- Vertex is flagged as reference (`is_reference(Vertex)`). -/
def vertIsRef (a : Asm S) (v : ℕ) : Bool :=
  ((a.findVert v).map AsmVert.is_reference).getD false

/-- Add a vertex for a kmer (`add_vertex`); `none` iff the kmer is not
canonical.  The new node's `index` is the current vertex count. -/
def addVertex (a : Asm S) (km : List Char) (is_ref : Bool) : Option (Asm S × ℕ) :=
  if isCanonicalDna km then
    let v := a.nextVid
    some ({ a with nextVid := v + 1,
                   verts := a.verts ++ [⟨v, a.verts.length, km, is_ref⟩] }, v)
  else none

/-- Add an edge with the given weight and reference flag (`add_edge`).
Parallel edges are created freely, as in the source. -/
def addEdge (M : ScoreModel S) (a : Asm S) (u v : ℕ) (w : ℕ) (is_ref : Bool) : Asm S :=
  { a with nextEid := a.nextEid + 1,
           edges := a.edges ++ [⟨a.nextEid, u, v, w, is_ref, M.zero⟩] }

/-- Reference edge insertion (`add_reference_edge`: weight 0, reference). -/
def addReferenceEdge (M : ScoreModel S) (a : Asm S) (u v : ℕ) : Asm S :=
  addEdge M a u v 0 true

/-- Increment an edge's weight (`increment_weight`). -/
def incrementWeight (a : Asm S) (eid : ℕ) : Asm S :=
  { a with edges := a.edges.map (fun e => if e.eid = eid then { e with weight := e.weight + 1 } else e) }

/-- Remove a single edge by identity (`remove_edge(Edge)`). -/
def removeEdgeId (a : Asm S) (eid : ℕ) : Asm S :=
  { a with edges := a.edges.filter (fun e => e.eid ≠ eid) }

/-- Remove all `u → v` edges (`remove_edge(u, v)`, which for a multigraph
erases every such occurrence). -/
def removeEdgeUV (a : Asm S) (u v : ℕ) : Asm S :=
  { a with edges := a.edges.filter (fun e => ¬ (e.src = u ∧ e.dst = v)) }

/-- Remove a vertex from the vertex list and cache (`remove_vertex`; the
source requires the caller to have removed incident edges first). -/
def removeVertexOnly (a : Asm S) (v : ℕ) : Asm S :=
  { a with verts := a.verts.filter (fun n => n.vid ≠ v) }

/-- Remove all edges incident to `v` (`boost::clear_vertex`). -/
def clearVertexEdges (a : Asm S) (v : ℕ) : Asm S :=
  { a with edges := a.edges.filter (fun e => ¬ (e.src = v ∨ e.dst = v)) }

/-- Remove out-edges of `v` (`boost::clear_out_edges`). -/
def clearOutEdges (a : Asm S) (v : ℕ) : Asm S :=
  { a with edges := a.edges.filter (fun e => e.src ≠ v) }

/-- Clear incident edges, cache entry and vertex (`clear_and_remove_vertex`). -/
def clearAndRemoveVertex (a : Asm S) (v : ℕ) : Asm S :=
  (a.clearVertexEdges v).removeVertexOnly v

/-- Remove a set of vertices with their incident edges (`clear_and_remove_all`;
iteration order over the `unordered_set` is immaterial to the result). -/
def clearAndRemoveAll (a : Asm S) (vs : List ℕ) : Asm S :=
  vs.foldl (fun acc v => acc.clearAndRemoveVertex v) a

/-- Mark a vertex as reference (`set_vertex_reference`). -/
def setVertexReference (a : Asm S) (v : ℕ) : Asm S :=
  { a with verts := a.verts.map (fun n => if n.vid = v then { n with is_reference := true } else n) }

/-- Mark an edge as reference (`set_edge_reference`). -/
def setEdgeReference (a : Asm S) (eid : ℕ) : Asm S :=
  { a with edges := a.edges.map (fun e => if e.eid = eid then { e with is_reference := true } else e) }

/-- Regenerate the `index` attributes in vertex iteration order
(`regenerate_vertex_indices`). -/
def regenerateVertexIndices (a : Asm S) : Asm S :=
  { a with verts := List.map (fun p => { p.1 with index := p.2 }) (a.verts.zip (List.range a.verts.length)) }

/-- Whether the reference kmer list is empty (`is_reference_empty`). -/
def isReferenceEmpty (a : Asm S) : Bool := a.reference_kmers.isEmpty

/-- First reference vertex (`reference_head`). -/
def referenceHead (a : Asm S) : ℕ :=
  a.cacheGet (a.reference_kmers.headD [])

/-- Last reference vertex (`reference_tail`). -/
def referenceTail (a : Asm S) : ℕ :=
  a.cacheGet (a.reference_kmers.getLastD [])

/-- Reference length in bases (`reference_size` = `|kmers| + k - 1`). -/
def referenceSize (a : Asm S) : ℕ :=
  a.reference_kmers.length + a.k - 1

/-- Count of reference-flagged vertices (`num_reference_kmers`). -/
def numReferenceKmers (a : Asm S) : ℕ :=
  (a.verts.filter (fun n => n.is_reference)).length

/-- Graph clearing (`clear`): graph, cache and reference kmers are dropped;
`reference_head_position_` is retained, as in the source. -/
def clear (a : Asm S) : Asm S :=
  { a with verts := [], edges := [], reference_kmers := [] }

end Asm

/-! ## Assembler: insertion operations -/

/-- Error outcomes of assembler operations.  `badReferenceSequence` models the
`BadReferenceSequence` exception (which carries the offending sequence);
`runtimeError` models the plain `std::runtime_error` throws. -/
inductive AsmError where
  | badReferenceSequence (seq : List Char)
  | runtimeError (msg : String)
  deriving DecidableEq, Repr

namespace Asm

variable {S : Type}

/-- Loop body of `insert_reference_into_empty_graph`: each step slides the
window by one base, records the kmer in `reference_kmers_`, and either adds a
fresh reference vertex plus the reference edge from the previous kmer's vertex
or, when the kmer is already cached, just adds the reference edge. -/
def insertRefEmptyGo (M : ScoreModel S) : Asm S → List Char → List Char →
    Except AsmError (Asm S)
  | a, _, [] => .ok a
  | a, prev, c :: cs =>
    let km := prev.drop 1 ++ [c]
    let a := { a with reference_kmers := a.reference_kmers ++ [km] }
    if a.containsKmer km then
      let u := a.cacheGet prev
      let v := a.cacheGet km
      insertRefEmptyGo M (a.addReferenceEdge M u v) km cs
    else
      match a.addVertex km true with
      | some (a', v) =>
        let u := a'.cacheGet prev
        insertRefEmptyGo M (a'.addReferenceEdge M u v) km cs
      | none => .error (.badReferenceSequence (prev ++ (c :: cs)))

/-- `Assembler::insert_reference_into_empty_graph`: throws a plain
`runtime_error` when the sequence is shorter than the kmer size, and
`BadReferenceSequence` when a non-canonical kmer prevents vertex creation. -/
def insert_reference_into_empty_graph (M : ScoreModel S) (a : Asm S)
    (seq : List Char) : Except AsmError (Asm S) :=
  if seq.length < a.k then
    .error (.runtimeError "Assembler:: reference length must >= kmer_size")
  else
    let w0 := seq.take a.k
    let a := { a with reference_kmers := a.reference_kmers ++ [w0] }
    if a.containsKmer w0 then
      insertRefEmptyGo M a w0 (seq.drop a.k)
    else
      match a.addVertex w0 true with
      | some (a', _) => insertRefEmptyGo M a' w0 (seq.drop a.k)
      | none => .error (.badReferenceSequence seq)

/-- Loop body of `insert_reference_into_populated_graph`: as in the empty-graph
case, except that cached kmers are re-flagged as reference and an existing
`u → v` edge is re-flagged rather than duplicated. -/
def insertRefPopGo (M : ScoreModel S) : Asm S → List Char → List Char →
    Except AsmError (Asm S)
  | a, _, [] => .ok a
  | a, prev, c :: cs =>
    let km := prev.drop 1 ++ [c]
    let a := { a with reference_kmers := a.reference_kmers ++ [km] }
    if a.containsKmer km then
      let u := a.cacheGet prev
      let v := a.cacheGet km
      let a := a.setVertexReference v
      match a.edgeBetween u v with
      | some e => insertRefPopGo M (a.setEdgeReference e.eid) km cs
      | none => insertRefPopGo M (a.addReferenceEdge M u v) km cs
    else
      match a.addVertex km true with
      | some (a', v) =>
        let u := a'.cacheGet prev
        insertRefPopGo M (a'.addReferenceEdge M u v) km cs
      | none => .error (.badReferenceSequence (prev ++ (c :: cs)))

/-- `Assembler::insert_reference_into_populated_graph`.  Note the guards: a
second reference insertion and a too-short sequence both throw plain
`runtime_error`s; only non-canonical kmers produce `BadReferenceSequence`. -/
def insert_reference_into_populated_graph (M : ScoreModel S) (a : Asm S)
    (seq : List Char) : Except AsmError (Asm S) :=
  if ¬ a.reference_kmers.isEmpty then
    .error (.runtimeError "Assembler: only one reference sequence can be inserted into the graph")
  else if seq.length < a.k then
    .error (.runtimeError "Assembler:: reference length must >= kmer_size")
  else
    let w0 := seq.take a.k
    let a := { a with reference_kmers := a.reference_kmers ++ [w0] }
    let step1 : Except AsmError (Asm S) :=
      if a.containsKmer w0 then .ok (a.setVertexReference (a.cacheGet w0))
      else
        match a.addVertex w0 true with
        | some (a', _) => .ok a'
        | none => .error (.badReferenceSequence seq)
    match step1 with
    | .error e => .error e
    | .ok a' =>
      match insertRefPopGo M a' w0 (seq.drop a.k) with
      | .error e => .error e
      | .ok a'' => .ok ({ a''.regenerateVertexIndices with reference_head_position := 0 })

/-- `Assembler::insert_reference`: dispatch on graph emptiness. -/
def insert_reference (M : ScoreModel S) (a : Asm S) (seq : List Char) :
    Except AsmError (Asm S) :=
  if a.is_empty then insert_reference_into_empty_graph M a seq
  else insert_reference_into_populated_graph M a seq

/-- Loop body of `insert_read`: the state carries the `prev_kmer_good` flag.
Edges between consecutive canonical kmers are created with weight 1 or
reinforced by 1; a non-canonical kmer suppresses the edge across the gap. -/
def insertReadGo (M : ScoreModel S) : Asm S → List Char → Bool → List Char → Asm S
  | a, _, _, [] => a
  | a, prev, prevGood, c :: cs =>
    let km := prev.drop 1 ++ [c]
    if a.containsKmer km then
      if prevGood then
        let u := a.cacheGet prev
        let v := a.cacheGet km
        match a.edgeBetween u v with
        | some e => insertReadGo M (a.incrementWeight e.eid) km true cs
        | none => insertReadGo M (a.addEdge M u v 1 false) km true cs
      else insertReadGo M a km true cs
    else
      match a.addVertex km false with
      | some (a', v) =>
        if prevGood then
          let u := a'.cacheGet prev
          insertReadGo M (a'.addEdge M u v 1 false) km true cs
        else insertReadGo M a' km true cs
      | none => insertReadGo M a km false cs

/-- `Assembler::insert_read`: a no-op for reads shorter than `k`. -/
def insert_read (M : ScoreModel S) (a : Asm S) (seq : List Char) : Asm S :=
  if seq.length < a.k then a
  else
    let w0 := seq.take a.k
    if a.containsKmer w0 then insertReadGo M a w0 true (seq.drop a.k)
    else
      match a.addVertex w0 false with
      | some (a', _) => insertReadGo M a' w0 true (seq.drop a.k)
      | none => insertReadGo M a w0 false (seq.drop a.k)

/-- Insert `n` copies of the same read. -/
def insertReads (M : ScoreModel S) (a : Asm S) (seq : List Char) (n : ℕ) : Asm S :=
  match n with
  | 0 => a
  | n + 1 => insertReads M (a.insert_read M seq) seq n

/-! ## Assembler: reference path predicate and `is_all_reference` -/

/-- Fuel-driven walk of `is_reference_unique_path`: from each vertex, follow
the first reference out-edge; fail if a second reference out-edge exists; at
the tail, require no reference out-edge.  The source's loop diverges (or walks
off an iterator) on a broken or cyclic reference path; those runs are
totalised here to `false`, and every theorem that relies on this predicate
evaluates it on graphs where the walk terminates. -/
def refUniqueWalk (a : Asm S) (tail : ℕ) : ℕ → ℕ → Bool
  | _, 0 => false
  | u, fuel + 1 =>
    if u = tail then
      ((a.outEdges tail).filter (fun e => e.is_reference)).isEmpty
    else
      match (a.outEdges u).filter (fun e => e.is_reference) with
      | [] => false
      | e :: rest => if rest.isEmpty then refUniqueWalk a tail e.dst fuel else false

/-- `Assembler::is_reference_unique_path`. -/
def is_reference_unique_path (a : Asm S) : Bool :=
  refUniqueWalk a (a.referenceTail) (a.referenceHead) (a.numVertices + 1)

/-- `Assembler::is_all_reference`: every edge is a reference edge. -/
def is_all_reference (a : Asm S) : Bool :=
  a.edges.all (fun e => e.is_reference)

end Asm

/-! ## Assembler: pruning -/

namespace Asm

variable {S : Type}

/-- Trivial cycle test (`is_trivial_cycle`). -/
def isTrivialCycle (e : AsmEdge S) : Bool := e.src = e.dst

/-- Whether any edge is a trivial cycle (`graph_has_trivial_cycle`). -/
def graphHasTrivialCycle (a : Asm S) : Bool :=
  a.edges.any isTrivialCycle

/-- `remove_trivial_nonreference_cycles` via `boost::remove_edge_if`; the
predicate does not inspect the surrounding graph, so this is a plain filter. -/
def remove_trivial_nonreference_cycles (a : Asm S) : Asm S :=
  { a with edges := a.edges.filter (fun e => ¬ (¬ e.is_reference ∧ isTrivialCycle e)) }

/-- Sum of in-edge weights of an edge's source (`sum_source_in_edge_weight`). -/
def sumSourceInEdgeWeight (a : Asm S) (e : AsmEdge S) : ℕ :=
  ((a.inEdges e.src).map AsmEdge.weight).sum

/-- Sum of out-edge weights of an edge's target (`sum_target_out_edge_weight`). -/
def sumTargetOutEdgeWeight (a : Asm S) (e : AsmEdge S) : ℕ :=
  ((a.outEdges e.dst).map AsmEdge.weight).sum

/-- `Assembler::is_low_weight`: non-reference, weight below `min_weight`, and
either starved at the source or with weak surrounding flow. -/
def is_low_weight (a : Asm S) (e : AsmEdge S) (min_weight : ℕ) : Bool :=
  if e.is_reference then false
  else if min_weight ≤ e.weight then false
  else if a.sumSourceInEdgeWeight e < min_weight then true
  else a.sumSourceInEdgeWeight e + e.weight + a.sumTargetOutEdgeWeight e < 3 * min_weight

/-- Sequential edge removal in boost iteration order with the predicate
re-evaluated against the current graph, as `boost::remove_edge_if` does. -/
def removeEdgeIfSeq (a : Asm S) (p : Asm S → AsmEdge S → Bool) : Asm S :=
  go a ((a.boostEdges).map AsmEdge.eid)
where
  go : Asm S → List ℕ → Asm S
  | acc, [] => acc
  | acc, eid :: rest =>
    match acc.edges.find? (fun e => e.eid = eid) with
    | some e => if p acc e then go (acc.removeEdgeId eid) rest else go acc rest
    | none => go acc rest

/-- `remove_low_weight_edges`. -/
def remove_low_weight_edges (a : Asm S) (min_weight : ℕ) : Asm S :=
  a.removeEdgeIfSeq (fun acc e => acc.is_low_weight e min_weight)

/-- `remove_disconnected_vertices`: vertices of total degree 0 are removed
(removals cannot change other vertices' degrees). -/
def remove_disconnected_vertices (a : Asm S) : Asm S :=
  { a with verts := a.verts.filter (fun n => a.degree n.vid ≠ 0) }

/-- One breadth-first expansion step over the forward edges. -/
def bfsStep (a : Asm S) (seen : List ℕ) : List ℕ :=
  seen ++ ((a.edges.filter (fun e => seen.contains e.src && ¬ seen.contains e.dst)).map AsmEdge.dst).dedup

/-- Iterated expansion: after `numVertices` rounds the reachable set is
closed.  The result is the set discovered by `find_reachable_kmers` (the BFS
visitor records every discovered vertex, the start included). -/
def reachableFwd (a : Asm S) (v : ℕ) : List ℕ :=
  go (a.numVertices) [v]
where
  go : ℕ → List ℕ → List ℕ
  | 0, seen => seen
  | fuel + 1, seen => go fuel (a.bfsStep seen)

/-- One breadth-first expansion step over reversed edges (`make_reverse_graph`). -/
def bfsStepRev (a : Asm S) (seen : List ℕ) : List ℕ :=
  seen ++ ((a.edges.filter (fun e => seen.contains e.dst && ¬ seen.contains e.src)).map AsmEdge.src).dedup

/-- Reverse reachability from a seed set. -/
def reachableRev (a : Asm S) (vs : List ℕ) : List ℕ :=
  go (a.numVertices) vs
where
  go : ℕ → List ℕ → List ℕ
  | 0, seen => seen
  | fuel + 1, seen => go fuel (a.bfsStepRev seen)

/-- `find_reachable_kmers` (forward BFS discovery set). -/
def find_reachable_kmers (a : Asm S) (v : ℕ) : List ℕ := a.reachableFwd v

/-- `remove_vertices_that_cant_be_reached_from`: the reachable set is computed
once, then every vertex outside it is cleared and removed; the removed
vertices are returned (the caller `remove_vertices_past` uses them). -/
def remove_vertices_that_cant_be_reached_from (a : Asm S) (v : ℕ) :
    List ℕ × Asm S :=
  let reach := a.find_reachable_kmers v
  let doomed := (a.verts.filter (fun n => ¬ reach.contains n.vid)).map AsmVert.vid
  (doomed, a.clearAndRemoveAll doomed)

/-- `remove_vertices_that_cant_reach`: reverse BFS from `v` on the transpose
graph; vertices not found are cleared and removed. -/
def remove_vertices_that_cant_reach (a : Asm S) (v : ℕ) : Asm S :=
  if a.isReferenceEmpty then a
  else
    let reach := a.reachableRev [v]
    let doomed := (a.verts.filter (fun n => ¬ reach.contains n.vid)).map AsmVert.vid
    a.clearAndRemoveAll doomed

/-- `remove_vertices_past`: delete everything strictly beyond `v`, taking care
not to delete vertices lying on a cycle through `v`.  Mirrors the source:
compute the forward-reachable set minus `v`, cut `v`'s out-edges, collect
cycle tails (vertices with an edge back into `v`), take the union of their
reverse-reachable sets, spare the intersection, fall back to a global
reachability sweep when an intersection existed, and clear the rest. -/
def remove_vertices_past (a : Asm S) (v : ℕ) : Asm S :=
  let reach0 := (a.find_reachable_kmers v).filter (fun u => u ≠ v)
  let a := a.clearOutEdges v
  let cycle_tails := reach0.filter (fun u => (a.edgeBetween u v).isSome)
  if cycle_tails.isEmpty then
    a.clearAndRemoveAll reach0
  else
    let back_reach := a.reachableRev cycle_tails
    let reach1 := reach0.filter (fun u => ¬ cycle_tails.contains u)
    let has_intersects := reach1.any (fun u => back_reach.contains u)
    let reach2 := reach1.filter (fun u => ¬ back_reach.contains u)
    if has_intersects then
      let (removed, a') := a.remove_vertices_that_cant_be_reached_from (a.referenceHead)
      a'.clearAndRemoveAll (reach2.filter (fun u => ¬ removed.contains u))
    else
      a.clearAndRemoveAll reach2

/-- Kahn-style topological sort over the current graph; `none` iff a cycle
exists (where `boost::topological_sort` throws `not_a_dag`).  Among the ready
vertices the first in vertex insertion order is emitted; in every use below
the scanned prefix and suffix of the order are forced (the graph has a unique
source and a unique sink there), so this choice is immaterial. -/
def topologicalSortAux (a : Asm S) : ℕ → List ℕ → List ℕ → Option (List ℕ)
  | 0, acc, remaining => if remaining.isEmpty then some acc.reverse else none
  | fuel + 1, acc, remaining =>
    if remaining.isEmpty then some acc.reverse
    else
      match remaining.find? (fun v =>
          (a.edges.filter (fun e => e.dst = v && remaining.contains e.src && e.src ≠ v)).isEmpty) with
      | some v => topologicalSortAux a fuel (v :: acc) (remaining.filter (fun u => u ≠ v))
      | none => none

/-- Topological sort of the whole graph. -/
def topologicalSort (a : Asm S) : Option (List ℕ) :=
  topologicalSortAux a (a.numVertices + 1) [] (a.verts.map AsmVert.vid)

/-- `can_prune_reference_flanks`. -/
def can_prune_reference_flanks (a : Asm S) : Bool :=
  a.outDegree (a.referenceHead) = 1 || a.inDegree (a.referenceTail) = 1

/-- Head-flank condition scanned by `prune_reference_flanks`: one out-edge,
and it is a reference edge. -/
def headFlankCond (a : Asm S) (v : ℕ) : Bool :=
  match a.outEdges v with
  | [e] => e.is_reference
  | _ => false

/-- Tail-flank condition: one in-edge, and it is a reference edge. -/
def tailFlankCond (a : Asm S) (v : ℕ) : Bool :=
  match a.inEdges v with
  | [e] => e.is_reference
  | _ => false

/-- Removal loop for the head flank: delete the edge to the unique successor,
the vertex, and the first reference kmer, advancing the head position. -/
def dropHeadFlank : Asm S → List ℕ → Asm S
  | a, [] => a
  | a, u :: rest =>
    let succ := ((a.outEdges u).head?.map AsmEdge.dst).getD 0
    let a := (a.removeEdgeUV u succ).removeVertexOnly u
    let a := { a with reference_kmers := a.reference_kmers.tail,
                      reference_head_position := a.reference_head_position + 1 }
    dropHeadFlank a rest

/-- Removal loop for the tail flank: delete the edge from the unique
predecessor, the vertex, and the last reference kmer. -/
def dropTailFlank : Asm S → List ℕ → Asm S
  | a, [] => a
  | a, u :: rest =>
    let pred := ((a.inEdges u).head?.map AsmEdge.src).getD 0
    let a := (a.removeEdgeUV pred u).removeVertexOnly u
    let a := { a with reference_kmers := a.reference_kmers.dropLast }
    dropTailFlank a rest

/-- `prune_reference_flanks`: topologically sort, scan the maximal prefix of
vertices with a single reference out-edge and pop them off the head, then
symmetrically scan the matching suffix (evaluated on the graph after the head
removals, as in the source) and pop it off the tail.  Returns `none` where the
source would see `boost::not_a_dag`. -/
def prune_reference_flanks (a : Asm S) : Option (Asm S) :=
  if a.isReferenceEmpty then some a
  else
    match a.topologicalSort with
    | none => none
    | some sorted =>
      let prefixLen := (sorted.takeWhile (fun v => a.headFlankCond v)).length
      let headPart := sorted.take prefixLen
      let a' := a.dropHeadFlank headPart
      let remaining := sorted.drop prefixLen
      let suffixRev := (remaining.reverse).takeWhile (fun v => a'.tailFlankCond v)
      some (a'.dropTailFlank suffixRev)

end Asm

namespace Asm

variable {S : Type}

/-- Size re-check after each prune step, modelling the recurring source block
`new = num_vertices; if (new != old) { regenerate_vertex_indices; if (new < 2)
return true; old = new; }`.  `.inr` is the early `return true` (with the
regenerated state), `.inl` continues with the updated `(state, old)`. -/
def pruneResize (a : Asm S) (old : ℕ) : (Asm S × ℕ) ⊕ (Asm S) :=
  let n := a.numVertices
  if n = old then .inl (a, old)
  else
    let a := a.regenerateVertexIndices
    if n < 2 then .inr a else .inl (a, n)

/-- `Assembler::prune`.  Returns the C++ return value paired with the state
the assembler object holds afterwards.  The three `return false` paths clear
the graph: broken reference-unique-path invariant on entry, `not_a_dag` from
the topological sort inside reference-flank pruning, and flank pruning still
applicable after it has run. -/
def prune (min_weight : ℕ) (a : Asm S) : Bool × Asm S :=
  if ¬ a.is_reference_unique_path then (false, a.clear)
  else if a.numVertices < 2 then (true, a)
  else
    let old := a.numVertices
    match pruneResize (a.remove_trivial_nonreference_cycles) old with
    | .inr a1 => (true, a1)
    | .inl (a1, old) =>
      match pruneResize ((a1.remove_low_weight_edges min_weight).remove_disconnected_vertices) old with
      | .inr a2 => (true, a2)
      | .inl (a2, old) =>
        match pruneResize ((a2.remove_vertices_that_cant_be_reached_from a2.referenceHead).2) old with
        | .inr a3 => (true, a3)
        | .inl (a3, old) =>
          match pruneResize (a3.remove_vertices_past a3.referenceTail) old with
          | .inr a4 => (true, a4)
          | .inl (a4, old) =>
            match pruneResize (a4.remove_vertices_that_cant_reach a4.referenceTail) old with
            | .inr a5 => (true, a5)
            | .inl (a5, old) =>
              match (if a5.can_prune_reference_flanks then a5.prune_reference_flanks else some a5) with
              | none => (false, a5.clear)
              | some a6 =>
                if a6.isReferenceEmpty then (true, a6.clear)
                else if a6.can_prune_reference_flanks then (false, a6.clear)
                else if a6.numVertices ≠ old then (true, a6.regenerateVertexIndices)
                else (true, a6)

end Asm

/-! ## Assembler: transition scores, dominators, shortest paths -/

namespace Asm

variable {S : Type}

/-- Sum of out-edge weights of a vertex (`count_out_weight`). -/
def countOutWeight (a : Asm S) (v : ℕ) : ℕ :=
  ((a.outEdges v).map AsmEdge.weight).sum

/-- `compute_transition_score`: 0 when the vertex has no outgoing weight, the
maximal score when the edge itself has weight 0, otherwise `|log(w / W)|`
(delegated to the score model). -/
def computeTransitionScore (M : ScoreModel S) (w W : ℕ) : S :=
  if W = 0 then M.zero
  else if w = 0 then M.maxScore
  else M.absLog w W

/-- `set_out_edge_transition_scores`: rescore the out-edges of one vertex. -/
def set_out_edge_transition_scores (M : ScoreModel S) (a : Asm S) (v : ℕ) : Asm S :=
  let W := a.countOutWeight v
  { a with edges := a.edges.map (fun e =>
      if e.src = v then { e with transition_score := computeTransitionScore M e.weight W } else e) }

/-- `set_all_edge_transition_scores_from`: the DFS visitor rescores the
out-edges of every discovered vertex, and `boost::depth_first_search` visits
every vertex of the graph (restarting on each unvisited one), so every edge
ends up scored from its source's total out-weight. -/
def set_all_edge_transition_scores_from (M : ScoreModel S) (a : Asm S) (_src : ℕ) : Asm S :=
  { a with edges := a.edges.map (fun e =>
      { e with transition_score := computeTransitionScore M e.weight (a.countOutWeight e.src) }) }

/-- `set_all_in_edge_transition_scores`. -/
def set_all_in_edge_transition_scores (a : Asm S) (v : ℕ) (s : S) : Asm S :=
  { a with edges := a.edges.map (fun e => if e.dst = v then { e with transition_score := s } else e) }

/-- `is_blocked`: score at least `blockedScore`. -/
def isBlockedEdge (M : ScoreModel S) (e : AsmEdge S) : Bool :=
  M.le M.blockedScore e.transition_score

/-- `block_edge`. -/
def blockEdge (M : ScoreModel S) (a : Asm S) (eid : ℕ) : Asm S :=
  { a with edges := a.edges.map (fun e =>
      if e.eid = eid then { e with transition_score := M.blockedScore } else e) }

/-- `block_all_in_edges`. -/
def blockAllInEdges (M : ScoreModel S) (a : Asm S) (v : ℕ) : Asm S :=
  a.set_all_in_edge_transition_scores v M.blockedScore

/-- `all_in_edges_are_blocked` (note the source compares with `==` here). -/
def allInEdgesAreBlocked (M : ScoreModel S) (a : Asm S) (v : ℕ) : Bool :=
  (a.inEdges v).all (fun e => M.beq e.transition_score M.blockedScore)

/-- `block_all_vertices`. -/
def blockAllVertices (M : ScoreModel S) (a : Asm S) (vs : List ℕ) : Asm S :=
  vs.foldl (fun acc v => acc.blockAllInEdges M v) a

/-- `all_vertices_are_blocked`. -/
def allVerticesAreBlocked (M : ScoreModel S) (a : Asm S) (vs : List ℕ) : Bool :=
  vs.all (fun v => a.allInEdgesAreBlocked M v)

/-- Predecessors of `v` among a vertex set (via in-edges with both ends in
the set). -/
def predsIn (a : Asm S) (r : List ℕ) (v : ℕ) : List ℕ :=
  (((a.inEdges v).map AsmEdge.src).filter (fun u => r.contains u)).dedup

/-- One refinement round of the dominator-set fixpoint:
`dom(v) = {v} ∪ ⋂ over predecessors p of dom(p)` for `v ≠ root`. -/
def domRound (a : Asm S) (root : ℕ) (r : List ℕ) (dom : ℕ → List ℕ) : ℕ → List ℕ :=
  fun v =>
    if v = root then [root]
    else
      match a.predsIn r v with
      | [] => [v]
      | p :: ps => v :: ((ps.map dom).foldl (fun acc l => acc.filter (fun x => l.contains x)) (dom p)).filter (fun x => x ≠ v)

/-- Iterated dominator-set fixpoint (at most `|r|` rounds are needed). -/
def domSets (a : Asm S) (root : ℕ) (r : List ℕ) : ℕ → (ℕ → List ℕ)
  | 0 => fun v => if v = root then [root] else r
  | n + 1 => domRound a root r (domSets a root r n)

/-- Immediate dominator of a reachable non-root vertex: the strict dominator
with the largest dominator set (strict dominators form a chain, so this is
the deepest one, which is what `lengauer_tarjan_dominator_tree` computes). -/
def idomOf (dom : ℕ → List ℕ) (v : ℕ) : ℕ :=
  let strict := (dom v).filter (fun d => d ≠ v)
  (strict.foldl (fun best d =>
      match best with
      | none => some d
      | some b => if (dom b).length < (dom d).length then some d else some b) none).getD 0

/-- `build_dominator_tree`: the map `v ↦ idom(v)` for every vertex reachable
from `from` other than `from` itself (entries that boost leaves at
`null_vertex` are erased by the source). -/
def build_dominator_tree (a : Asm S) (root : ℕ) : List (ℕ × ℕ) :=
  let r := (a.reachableFwd root).dedup
  let dom := domSets a root r r.length
  (r.filter (fun v => v ≠ root)).map (fun v => (v, idomOf dom v))

/-- `extract_nondominant_reference`: reference vertices other than the tail
that appear as keys but never as values of the dominator tree. -/
def extract_nondominant_reference (a : Asm S) (domTree : List (ℕ × ℕ)) : List ℕ :=
  let dominators := domTree.map Prod.snd
  (domTree.map Prod.fst).filter (fun v =>
    a.vertIsRef v && v ≠ a.referenceTail && ¬ dominators.contains v)

/-- Relaxation of one edge during DAG shortest paths: strict improvement
updates distance and predecessor. -/
def relaxEdge (M : ScoreModel S) (du : S) (e : AsmEdge S)
    (st : List (ℕ × S) × List (ℕ × ℕ)) : List (ℕ × S) × List (ℕ × ℕ) :=
  let (dist, preds) := st
  let cand := M.add du e.transition_score
  match dist.find? (fun p => p.1 = e.dst) with
  | none =>
    (dist ++ [(e.dst, cand)], preds.map (fun p => if p.1 = e.dst then (p.1, e.src) else p))
  | some (_, dv) =>
    if M.lt cand dv then
      ((dist.map (fun p => if p.1 = e.dst then (p.1, cand) else p)),
       preds.map (fun p => if p.1 = e.dst then (p.1, e.src) else p))
    else (dist, preds)

/-- `find_shortest_scoring_paths` (`boost::dag_shortest_paths` with the
transition scores as weights): relax out-edges in topological order, starting
from `from` at distance zero; every vertex starts as its own predecessor, and
unreached vertices keep that self-loop. -/
def find_shortest_scoring_paths (M : ScoreModel S) (a : Asm S) (src : ℕ) :
    List (ℕ × ℕ) :=
  let order := (a.topologicalSort).getD []
  let init : List (ℕ × S) × List (ℕ × ℕ) :=
    ([(src, M.zero)], (a.verts.map AsmVert.vid).map (fun v => (v, v)))
  (order.foldl (fun st u =>
      match st.1.find? (fun p => p.1 = u) with
      | none => st
      | some (_, du) => (a.outEdges u).foldl (fun acc e => relaxEdge M du e acc) st) init).2

/-- Predecessor lookup `predecessors.at(v)`; total with a junk default. -/
def predAt (preds : List (ℕ × ℕ)) (v : ℕ) : ℕ :=
  ((preds.find? (fun p => p.1 = v)).map Prod.snd).getD v

/-- `is_on_path(Vertex, predecessors, from)`: walk the predecessor chain from
`from` looking for `v` (fuel-totalised; predecessor chains in use terminate
at a self-predecessor). -/
def isVertexOnPredPath (preds : List (ℕ × ℕ)) (v : ℕ) : ℕ → ℕ → Bool
  | _, 0 => false
  | cur, fuel + 1 =>
    if cur = v then true
    else
      let p := predAt preds cur
      if p = cur then false else isVertexOnPredPath preds v p fuel

/-- `backtrack_until_nonreference`: walk predecessors from `from` while the
connecting edge is a reference edge, stopping at the reference head; returns
`(v, from, count)` with `count` the number of steps taken.  A missing edge
(where the source asserts) stops the walk. -/
def backtrack_until_nonreference (a : Asm S) (preds : List (ℕ × ℕ)) :
    ℕ → ℕ → ℕ → ℕ × ℕ × ℕ
  | from_, count, 0 => (predAt preds from_, from_, count)
  | from_, count, fuel + 1 =>
    let v := predAt preds from_
    if v = a.referenceHead then (v, from_, count)
    else
      match a.edgeBetween v from_ with
      | none => (v, from_, count)
      | some e =>
        if ¬ e.is_reference then (v, from_, count)
        else backtrack_until_nonreference a preds v (count + 1) fuel

/-- Entry point matching the source's initialisation (`count` starts at 1
after the first predecessor step). -/
def backtrackFrom (a : Asm S) (preds : List (ℕ × ℕ)) (from_ : ℕ) : ℕ × ℕ × ℕ :=
  backtrack_until_nonreference a preds from_ 1 (a.numVertices + 1)

/-- `extract_nonreference_path`: predecessors of `from` while they are
non-reference vertices, front-first. -/
def extract_nonreference_path (a : Asm S) (preds : List (ℕ × ℕ)) (from_ : ℕ) :
    List ℕ :=
  go (predAt preds from_) [from_] (a.numVertices + 1)
where
  go : ℕ → List ℕ → ℕ → List ℕ
  | _, acc, 0 => acc
  | cur, acc, fuel + 1 =>
    if a.vertIsRef cur then acc
    else go (predAt preds cur) (cur :: acc) fuel

end Asm

/-! ## Assembler: sequences, path removal, bubble extraction -/

/-- An extracted variant `(begin_pos, ref, alt)` (`Assembler::Variant`). -/
structure AsmVariant where
  begin_pos : ℕ
  ref : List Char
  alt : List Char
  deriving DecidableEq, Repr

/-- `operator<` on variants: by `(begin_pos, |ref|, alt)`. -/
def variantLt (l r : AsmVariant) : Bool :=
  if l.begin_pos = r.begin_pos then
    if l.ref.length = r.ref.length then charListLt l.alt r.alt
    else l.ref.length < r.ref.length
  else l.begin_pos < r.begin_pos

/-- Companion non-strict order driving the sort. -/
def variantLe (l r : AsmVariant) : Bool := ¬ variantLt r l

/-- `operator==` on variants: equal `begin_pos` and `alt`; the `ref` field is
not compared. -/
def variantEqv (l r : AsmVariant) : Bool :=
  l.begin_pos = r.begin_pos && l.alt = r.alt

/-- `sequence_length(num_kmers, k) = num_kmers + k - 1`. -/
def seqLength (numKmers k : ℕ) : ℕ := numKmers + k - 1

/-- `count_kmers(sequence, k)`. -/
def countKmersIn (s : List Char) (k : ℕ) : ℕ :=
  if k ≤ s.length then s.length - k + 1 else 0

namespace Asm

variable {S : Type}

def findEdgeById (a : Asm S) (eid : ℕ) : Option (AsmEdge S) :=
  a.edges.find? (fun e => e.eid = eid)

/-- Last base of a vertex's kmer (`back_base_of`), as a singleton list. -/
def backBaseOf (a : Asm S) (v : ℕ) : List Char :=
  match (a.kmer_of v).getLast? with
  | some c => [c]
  | none => []

/-- `make_sequence`: the first kmer followed by the last base of each
subsequent vertex on the path. -/
def make_sequence (a : Asm S) (path : List ℕ) : List Char :=
  match path with
  | [] => []
  | v :: rest => a.kmer_of v ++ rest.flatMap (fun u => a.backBaseOf u)

/-- Next vertex on the reference path (`next_reference`: target of the first
reference out-edge; `none` where the source's assert would fire). -/
def nextReference (a : Asm S) (u : ℕ) : Option ℕ :=
  ((a.outEdges u).find? (fun e => e.is_reference)).map AsmEdge.dst

/-- Loop of `make_reference`: while the current vertex is not `last`, push its
last base and advance along the reference. -/
def makeRefGo (a : Asm S) (last : ℕ) : ℕ → List Char → ℕ → List Char
  | _, acc, 0 => acc
  | cur, acc, fuel + 1 =>
    if cur = last then acc
    else
      let acc := acc ++ a.backBaseOf cur
      match a.nextReference cur with
      | none => acc
      | some nxt => makeRefGo a last nxt acc fuel

/-- `make_reference(from, to)`, with `to = none` playing `null_vertex` (the
`from = null` case never arises in the embedded call sites). -/
def make_reference (a : Asm S) (from_ : ℕ) (to_ : Option ℕ) : List Char :=
  if to_ = some from_ then []
  else
    match to_ with
    | some t =>
      let acc := a.kmer_of from_
      match a.nextReference from_ with
      | none => acc
      | some nxt => makeRefGo a t nxt acc (a.numVertices + 1)
    | none =>
      if from_ = a.referenceTail then a.kmer_of from_
      else
        let last := a.referenceTail
        let acc := a.kmer_of from_
        let walked :=
          match a.nextReference from_ with
          | none => acc
          | some nxt => makeRefGo a last nxt acc (a.numVertices + 1)
        walked ++ a.backBaseOf last

/-- Middle of `remove_path`: remove the edge `(prev, v)` and the vertex
`prev` for each successive vertex. -/
def removePathMid : Asm S → ℕ → List ℕ → Asm S × ℕ
  | a, prev, [] => (a, prev)
  | a, prev, v :: rest => removePathMid ((a.removeEdgeUV prev v).removeVertexOnly prev) v rest

/-- `remove_path`: a singleton is cleared and removed; otherwise the first
in-edge of the front, the intermediate edges and vertices, and the first
out-edge of the back are removed (an empty path, where the source's assert
would fire, is a no-op). -/
def remove_path (a : Asm S) (path : List ℕ) : Asm S :=
  match path with
  | [] => a
  | [v] => a.clearAndRemoveVertex v
  | v :: rest =>
    let a := match (a.inEdges v).head? with
      | some e => a.removeEdgeId e.eid
      | none => a
    let (a, lastv) := removePathMid a v rest
    let a := match (a.outEdges lastv).head? with
      | some e => a.removeEdgeId e.eid
      | none => a
    a.removeVertexOnly lastv

/-- `is_bridge`: in-degree and out-degree both 1. -/
def is_bridge (a : Asm S) (v : ℕ) : Bool :=
  a.inDegree v = 1 && a.outDegree v = 1

/-- Index of the first non-bridge vertex (`is_bridge_until`). -/
def isBridgeUntil (a : Asm S) (path : List ℕ) : ℕ :=
  (path.takeWhile (fun v => a.is_bridge v)).length

/-- `joins_reference_only`: a single out-edge, and it is a reference edge. -/
def joins_reference_only (a : Asm S) (v : ℕ) : Bool :=
  match a.outEdges v with
  | [e] => e.is_reference
  | _ => false

/-- `is_simple_deletion`: a non-reference edge between two reference vertices. -/
def is_simple_deletion (a : Asm S) (e : AsmEdge S) : Bool :=
  ¬ e.is_reference && a.vertIsRef e.src && a.vertIsRef e.dst

/-- `is_on_path(Edge, Path)`: the edge is the first edge between some pair of
consecutive path vertices. -/
def isOnVertexPath (a : Asm S) (eid : ℕ) : List ℕ → Bool
  | u :: v :: rest =>
    (match a.edgeBetween u v with
     | some e => e.eid = eid
     | none => false) || isOnVertexPath a eid (v :: rest)
  | _ => false

/-- `connects_to_path`: the edge is the first in-edge of the path's front or
the first out-edge of its back. -/
def connectsToPath (a : Asm S) (eid : ℕ) (path : List ℕ) : Bool :=
  match path with
  | [] => false
  | v :: _ =>
    let front_in := ((a.inEdges v).head?.map AsmEdge.eid) = some eid
    let back_out := ((a.outEdges (path.getLastD v)).head?.map AsmEdge.eid) = some eid
    front_in || back_out

/-- `is_dependent_on_path`. -/
def isDependentOnPath (a : Asm S) (eid : ℕ) (path : List ℕ) : Bool :=
  connectsToPath a eid path || isOnVertexPath a eid path

/-- Dominator-tree lookup (`dominator_tree.at`). -/
def domAt (domTree : List (ℕ × ℕ)) (v : ℕ) : ℕ :=
  ((domTree.find? (fun p => p.1 = v)).map Prod.snd).getD 0

/-- `is_dominated_by_path`: the vertex's immediate dominator lies on the given
path segment. -/
def isDominatedByPath (domTree : List (ℕ × ℕ)) (v : ℕ) (seg : List ℕ) : Bool :=
  seg.contains (domAt domTree v)

/-- `erase_all(path, dominator_tree)`. -/
def domErase (domTree : List (ℕ × ℕ)) (path : List ℕ) : List (ℕ × ℕ) :=
  domTree.filter (fun p => ¬ path.contains p.1)

end Asm

/-! ## Assembler: `extract_k_highest_scoring_bubble_paths` -/

/-- Mutable state of the bubble-extraction loop. -/
structure ExtractState (S : Type) where
  a : Asm S
  domTree : List (ℕ × ℕ)
  blocked : Option ℕ
  maxBlockings : ℕ
  result : List AsmVariant
  k : ℕ
  numRemaining : ℕ
  deriving Repr

namespace Asm

variable {S : Type}

/-- Innermost loop of the bubble extractor (`while (!alt_path.empty())`):
remove whole bridge paths; cut at bifurcations that rejoin the reference
only; advance across bifurcations dominated by the path walked so far; block
the edge into any other bifurcation.  Returns the updated state and whether
the enclosing loop should `break` (the source distinguishes `break` from the
path becoming empty only in control flow, not in state). -/
def bridgeLoop (M : ScoreModel S) (vb : ℕ) (altPath : List ℕ)
    (st : ExtractState S) : ℕ → ExtractState S
  | 0 => st
  | fuel + 1 =>
    if altPath.isEmpty then st
    else
      let a := st.a
      let bifn := a.isBridgeUntil altPath
      if bifn = altPath.length then
        let blocked := match st.blocked with
          | some bid => if a.isDependentOnPath bid altPath then none else some bid
          | none => none
        let a := ((a.remove_path altPath).regenerateVertexIndices).set_out_edge_transition_scores M vb
        { st with a := a, blocked := blocked,
                  domTree := Asm.domErase st.domTree altPath,
                  numRemaining := st.numRemaining - altPath.length }
      else
        let bifv := altPath.getD bifn 0
        if a.joins_reference_only bifv then
          let cut := altPath.take bifn
          let blocked := match st.blocked with
            | some bid => if a.isDependentOnPath bid cut then none else some bid
            | none => none
          let a := ((a.remove_path cut).regenerateVertexIndices).set_out_edge_transition_scores M vb
          { st with a := a, blocked := blocked,
                    domTree := Asm.domErase st.domTree cut,
                    numRemaining := st.numRemaining - cut.length }
        else if Asm.isDominatedByPath st.domTree bifv (altPath.take bifn) then
          bridgeLoop M bifv (altPath.drop (bifn + 1)) st fuel
        else
          if bifn ≠ 0 then
            match a.edgeBetween (altPath.getD (bifn - 1) 0) bifv with
            | some e => { st with a := a.blockEdge M e.eid, blocked := some e.eid }
            | none => st
          else
            { st with a := a.blockAllInEdges M (altPath.headD 0) }

/-- Body of the inner loop (`while (alt != reference_head())`): extract the
bubble ending at `(alt, ref)`, emit its variant, remove or block the alt
path, then backtrack to the next bubble on the same shortest path. -/
def innerLoop (M : ScoreModel S) (preds : List (ℕ × ℕ)) :
    ℕ → ℕ → ℕ → ExtractState S → ℕ → ExtractState S
  | _, _, _, st, 0 => st
  | alt, refv, rhs, st, fuel + 1 =>
    if alt = st.a.referenceHead then st
    else
      let a := st.a
      let altPath := a.extract_nonreference_path preds alt
      let refBefore := Asm.predAt preds (altPath.headD 0)
      let refSeq := a.make_reference refBefore (some refv)
      let altSeq := a.make_sequence (refBefore :: altPath)
      let rhs := rhs + countKmersIn refSeq a.k
      let pos := a.reference_head_position + a.referenceSize - seqLength rhs a.k
      let st := { st with result := ⟨pos, refSeq, altSeq⟩ :: st.result }
      let rhs := rhs - 1
      let edgeToAlt := a.edgeBetween alt refv
      let st : ExtractState S :=
        match edgeToAlt with
        | some e =>
          if altPath.length = 1 ∧ a.is_simple_deletion e then
            let blocked := match st.blocked with
              | some bid =>
                match a.findEdgeById bid with
                | some be => if be.src = altPath.headD 0 ∧ be.dst = refv then none else some bid
                | none => some bid
              | none => none
            let a := (a.removeEdgeUV (altPath.headD 0) refv).set_out_edge_transition_scores M
                       (altPath.headD 0)
            { st with a := a, blocked := blocked }
          else bridgeLoop M refBefore altPath st (altPath.length + 1)
        | none => bridgeLoop M refBefore altPath st (altPath.length + 1)
      let next := Asm.backtrackFrom st.a preds refBefore
      let rhs := rhs + next.2.2
      let st := if st.k > 0 then { st with k := st.k - 1 } else st
      innerLoop M preds next.1 next.2.1 rhs st fuel

/-- Outer loop of `extract_k_highest_scoring_bubble_paths`: recompute shortest
scoring paths, service any blocked edge (subject to the `max_blockings` cap),
either block non-dominant reference vertices when the reference itself is the
shortest path, or peel all bubbles off the shortest path, and finally prune
reference flanks and rebuild the dominator tree. -/
def outerLoop (M : ScoreModel S) : ExtractState S → ℕ → List AsmVariant
  | st, 0 => st.result
  | st, fuel + 1 =>
    if st.k = 0 ∨ st.numRemaining = 0 then st.result
    else
      let a := st.a
      let preds := a.find_shortest_scoring_paths M a.referenceHead
      let blockedStep : Option (ExtractState S) :=
        match st.blocked with
        | none => some st
        | some bid =>
          if st.maxBlockings = 0 then none
          else
            let st := { st with maxBlockings := st.maxBlockings - 1 }
            match a.findEdgeById bid with
            | none => some { st with blocked := none }
            | some be =>
              if ¬ Asm.isVertexOnPredPath preds be.dst a.referenceTail (a.numVertices + 1) then
                some { st with a := a.set_out_edge_transition_scores M be.src, blocked := none }
              else if (a.outEdges be.dst).all (fun e => Asm.isBlockedEdge M e) then none
              else some st
      match blockedStep with
      | none => st.result
      | some st =>
        let a := st.a
        let bt := Asm.backtrackFrom a preds a.referenceTail
        if bt.1 = a.referenceHead then
          let nd := a.extract_nondominant_reference st.domTree
          if a.allVerticesAreBlocked M nd then st.result
          else outerLoop M { st with a := a.blockAllVertices M nd } fuel
        else
          let st := innerLoop M preds bt.1 bt.2.1 bt.2.2 st (a.numVertices + 1)
          let a := st.a
          if a.can_prune_reference_flanks then
            match a.prune_reference_flanks with
            | none => st.result
            | some a' =>
              let a' := a'.regenerateVertexIndices
              let st' := { st with a := a', domTree := a'.build_dominator_tree a'.referenceHead }
              outerLoop M st' fuel
          else outerLoop M st fuel

/-- `extract_k_highest_scoring_bubble_paths(k)`.  The fuel is generous; the
source's own loop is guarded only by the `max_blockings` hack and is not
known to terminate in general (a comment in the source says as much), so runs
beyond the fuel return the variants collected so far, exactly like the
`max_blockings` bail-out. -/
def extract_k_highest_scoring_bubble_paths (M : ScoreModel S) (a : Asm S) (k : ℕ) :
    List AsmVariant :=
  outerLoop M
    { a := a,
      domTree := a.build_dominator_tree a.referenceHead,
      blocked := none,
      maxBlockings := 50,
      result := [],
      k := k,
      numRemaining := a.num_kmers - a.numReferenceKmers }
    (a.numVertices + a.numEdges + 2 * k + 110)

/-- `Assembler::extract_variants`: empty or all-reference graphs yield no
variants; otherwise score all edges, extract up to `max` bubbles, sort by
`(begin_pos, |ref|, alt)` and remove adjacent `(begin_pos, alt)` duplicates
(`std::sort` followed by `std::unique`). -/
def extract_variants (M : ScoreModel S) (a : Asm S) (max : ℕ) : List AsmVariant :=
  if a.is_empty || a.is_all_reference then []
  else
    let a := a.set_all_edge_transition_scores_from M a.referenceHead
    let result := extract_k_highest_scoring_bubble_paths M a max
    uniqueAdj variantEqv (sortBy variantLe result)

end Asm

/-! ## Genomic regions

The region domain is an external collaborator ("Region domain (external)" in
the spec); the definitions below are modelled from the spec's data model
(half-open `[begin, end)` intervals, closed under contig equality, empty
regions standing for insertion points). -/

/-- Modelled from the spec: a contig-local half-open interval. -/
structure ContigRegion where
  begin_ : ℕ
  end_ : ℕ
  deriving DecidableEq, Repr

/-- Modelled from the spec: `{contig, [begin, end)}`. -/
structure GenomicRegion where
  contig : String
  begin_ : ℕ
  end_ : ℕ
  deriving DecidableEq, Repr

namespace GenomicRegion

def contig_region (r : GenomicRegion) : ContigRegion := ⟨r.begin_, r.end_⟩

/-- Modelled from the spec: `empty` iff `begin == end`. -/
def isEmptyRegion (r : GenomicRegion) : Bool := r.begin_ = r.end_

def size (r : GenomicRegion) : ℕ := r.end_ - r.begin_

/-- Modelled from the spec: overlap of half-open intervals, with closed
comparison when either side is an empty (insertion-point) region, matching
the spec's remark that insertions adjacent to a region count as overlapped. -/
def overlaps (l r : GenomicRegion) : Bool :=
  l.contig = r.contig &&
    (if l.begin_ = l.end_ || r.begin_ = r.end_ then
        l.begin_ ≤ r.end_ && r.begin_ ≤ l.end_
     else l.begin_ < r.end_ && r.begin_ < l.end_)

/-- Modelled from the spec: containment. -/
def contains_r (outer inner : GenomicRegion) : Bool :=
  outer.contig = inner.contig && outer.begin_ ≤ inner.begin_ && inner.end_ ≤ outer.end_

/-- Modelled from the spec: `lhs` lies wholly past `rhs`. -/
def is_after (l r : GenomicRegion) : Bool :=
  l.contig = r.contig && r.end_ ≤ l.begin_ && ¬ overlaps l r

/-- Modelled from the spec: `lhs` ends strictly before `rhs` ends. -/
def ends_before (l r : GenomicRegion) : Bool :=
  l.contig = r.contig && l.end_ < r.end_

/-- Modelled from the spec: `lhs` begins strictly before `rhs`. -/
def begins_before (l r : GenomicRegion) : Bool :=
  l.contig = r.contig && l.begin_ < r.begin_

/-- Modelled from the spec: the empty region at the start. -/
def head_region (r : GenomicRegion) : GenomicRegion := ⟨r.contig, r.begin_, r.begin_⟩

/-- Modelled from the spec: the empty region at the end. -/
def tail_region (r : GenomicRegion) : GenomicRegion := ⟨r.contig, r.end_, r.end_⟩

/-- Modelled from the spec: the size-one region just past the end
(`tail_position`). -/
def tail_position (r : GenomicRegion) : GenomicRegion := ⟨r.contig, r.end_, r.end_ + 1⟩

/-- Modelled from the spec: shift both endpoints by a signed offset. -/
def shift (r : GenomicRegion) (n : ℤ) : GenomicRegion :=
  ⟨r.contig, (r.begin_ + n).toNat, (r.end_ + n).toNat⟩

/-- Modelled from the spec: move the right endpoint by a signed offset
(`expand_rhs`; `expand_rhs(R, -1)` shaves one base off the right). -/
def expand_rhs (r : GenomicRegion) (n : ℤ) : GenomicRegion :=
  ⟨r.contig, r.begin_, (r.end_ + n).toNat⟩

/-- Modelled from the spec: expand left and right by the given amounts. -/
def expand2 (r : GenomicRegion) (l rr : ℕ) : GenomicRegion :=
  ⟨r.contig, r.begin_ - l, r.end_ + rr⟩

/-- Modelled from the spec: smallest region covering both. -/
def encompassing (l r : GenomicRegion) : GenomicRegion :=
  ⟨l.contig, min l.begin_ r.begin_, max l.end_ r.end_⟩

/-- Modelled from the spec: the part of `l` to the left of `r`
(`left_overhang_region`). -/
def left_overhang_region (l r : GenomicRegion) : GenomicRegion :=
  ⟨l.contig, l.begin_, min l.end_ r.begin_⟩

/-- Modelled from the spec: the part of `l` to the right of `r`
(`right_overhang_region`). -/
def right_overhang_region (l r : GenomicRegion) : GenomicRegion :=
  ⟨l.contig, max l.begin_ r.end_, max l.end_ r.end_⟩

/-- Modelled from the spec: the overlapped part (`overlapped_region`). -/
def overlapped_region (l r : GenomicRegion) : GenomicRegion :=
  ⟨l.contig, max l.begin_ r.begin_, min l.end_ r.end_⟩

/-- Modelled from the spec: the span from the start of `l` to the end of `r`
(`closed_region`). -/
def closed_region (l r : GenomicRegion) : GenomicRegion :=
  ⟨l.contig, l.begin_, r.end_⟩

end GenomicRegion

namespace ContigRegion

def overlapsCR (l r : ContigRegion) : Bool :=
  if l.begin_ = l.end_ || r.begin_ = r.end_ then l.begin_ ≤ r.end_ && r.begin_ ≤ l.end_
  else l.begin_ < r.end_ && r.begin_ < l.end_

/-- Membership of a position in a half-open contig region. -/
def containsPos (r : ContigRegion) (p : ℕ) : Bool := r.begin_ ≤ p && p < r.end_

end ContigRegion

/-! ## Read manager (`src/io/read/read_manager.cpp`)

The `ReadReader` files behind the manager are external; they are modelled
from the spec's reader contract by an environment giving each path its file
size, its samples, its indexed regions, and its read start positions.  The
container choices of the source are kept: `closed_readers_` is a set of
paths, while `open_readers_` is a `std::map` whose comparator is
`FileSizeCompare`, i.e. paths are map keys compared BY FILE SIZE, so two
distinct paths of equal size are equivalent keys. -/

/-- Modelled from the spec: the reader-file environment. `readPositions p`
lists `(sample, contig, position)` triples of read starts, sorted by
position. -/
structure RMEnv where
  size : String → ℕ
  samplesOf : String → List String
  mappedRegions : String → List GenomicRegion
  readPositions : String → List (String × String × ℕ)

/-- Modelled from the spec's reader contract:
`extract_read_positions(samples, region, max)` returns at most `max` of the
read start positions of the requested samples inside `region`. -/
def extractReadPositions (env : RMEnv) (path : String) (samples : List String)
    (region : GenomicRegion) (max : ℕ) : List ℕ :=
  (((env.readPositions path).filter (fun t =>
      samples.contains t.1 && t.2.1 = region.contig &&
      region.begin_ ≤ t.2.2 && t.2.2 < region.end_)).map (fun t => t.2.2)).take max

/-- State of a `ReadManager`.  `open_readers` is kept sorted by file size
(the `std::map` order); its keys are unique up to size equivalence. -/
structure RMState where
  env : RMEnv
  allPaths : List String
  max_open_files : ℕ
  num_files : ℕ
  closed_readers : List String
  open_readers : List String
  reader_paths_containing_sample : List (String × List String)
  possible_regions_in_readers : List (String × List GenomicRegion)
  samples : List String

namespace RMState

/-- Lookup in the size-keyed map: the element whose size equals the probe's
(`std::map<Path, ReadReader, FileSizeCompare>` key equivalence). -/
def mapFindBySize (env : RMEnv) (m : List String) (p : String) : Option String :=
  m.find? (fun q => env.size q = env.size p)

/-- `std::map::emplace`: no insertion when an equivalent (same-size) key is
present. -/
def mapEmplace (env : RMEnv) (m : List String) (p : String) : List String :=
  if (mapFindBySize env m p).isSome then m
  else sortInsert (fun x y => env.size x ≤ env.size y) p m

/-- `std::map::erase(key)`: removes the element with an equivalent key. -/
def mapErase (env : RMEnv) (m : List String) (p : String) : List String :=
  match mapFindBySize env m p with
  | some q => m.filter (fun x => x ≠ q)
  | none => m

/-- `ReadManager::is_open` (`open_readers_.count(path) == 1`, i.e. a lookup
by size equivalence). -/
def is_open (st : RMState) (p : String) : Bool :=
  (mapFindBySize st.env st.open_readers p).isSome

def num_open_readers (st : RMState) : ℕ := st.open_readers.length

def num_reader_spaces (st : RMState) : ℕ := st.max_open_files - st.num_open_readers

/-- `all_readers_are_open`. -/
def all_readers_are_open (st : RMState) : Bool := st.num_files ≤ st.max_open_files

/-- `choose_reader_to_close`: `open_readers_.begin()`, the smallest file. -/
def choose_reader_to_close (st : RMState) : Option String := st.open_readers.head?

/-- `close_reader`: erase from the open map (by size equivalence), insert
into the closed set (by path equality). -/
def close_reader (st : RMState) (p : String) : RMState :=
  { st with open_readers := mapErase st.env st.open_readers p,
            closed_readers := if st.closed_readers.contains p then st.closed_readers
                              else st.closed_readers ++ [p] }

/-- `close_readers(n)`: close the `n` smallest open readers.  Guarded on an
empty map, where the source would dereference `begin()` of an empty map. -/
def close_readers (st : RMState) : ℕ → RMState
  | 0 => st
  | n + 1 =>
    match st.choose_reader_to_close with
    | some p => close_readers (st.close_reader p) n
    | none => st

/-- `open_reader`: evict the smallest open reader when the budget is full,
then emplace the new reader and erase the path from the closed set. -/
def open_reader (st : RMState) (p : String) : RMState :=
  let st :=
    if st.num_open_readers = st.max_open_files then
      match st.choose_reader_to_close with
      | some q => st.close_reader q
      | none => st
    else st
  { st with open_readers := mapEmplace st.env st.open_readers p,
            closed_readers := st.closed_readers.filter (fun x => x ≠ p) }

/-- `open_readers(first, last)`: open as many requested paths as fit,
closing the smallest open readers to make room; returns the slice of paths
actually opened (the source's returned iterator marks its start) together
with the new state. -/
def open_readers_op (st : RMState) (paths : List String) : List String × RMState :=
  match paths with
  | [] => ([], st)
  | _ =>
    let avail := st.num_reader_spaces
    let requested := paths.length
    if requested ≤ avail then
      (paths, paths.foldl (fun acc p => acc.open_reader p) st)
    else
      let nClose := min st.num_open_readers (requested - avail)
      let st := st.close_readers nClose
      let avail := avail + nClose
      let opened := paths.drop (requested - avail)
      (opened, opened.foldl (fun acc p => acc.open_reader p) st)

/-- `could_reader_contain_region`: some indexed region of the path, on the
query's contig, overlaps the query. -/
def could_reader_contain_region (st : RMState) (p : String) (region : GenomicRegion) : Bool :=
  match st.possible_regions_in_readers.find? (fun q => q.1 = p) with
  | none => false
  | some (_, regs) => regs.any (fun r => r.contig = region.contig && r.overlaps region)

/-- `get_reader_paths_containing_samples` (duplicate paths collapse through
the `unordered_set`). -/
def get_reader_paths_containing_samples (st : RMState) (samples : List String) : List String :=
  (samples.flatMap (fun s =>
    ((st.reader_paths_containing_sample.find? (fun q => q.1 = s)).map Prod.snd).getD [])).dedup

/-- `get_possible_reader_paths(samples, region)`. -/
def get_possible_reader_paths (st : RMState) (samples : List String)
    (region : GenomicRegion) : List String :=
  (st.get_reader_paths_containing_samples samples).filter
    (fun p => st.could_reader_contain_region p region)

/-- `partition_open`: not-yet-open paths first (modelled stably; the source's
`std::partition` order within each part is unspecified and nothing below
depends on it).  Returns the partitioned list and the index of the first
open path (the source's returned iterator). -/
def partition_open (st : RMState) (paths : List String) : List String × ℕ :=
  let notOpen := paths.filter (fun p => ¬ st.is_open p)
  (notOpen ++ paths.filter (fun p => st.is_open p), notOpen.length)

end RMState

/-- Construction helper: the sample map built by
`setup_reader_samples_and_regions` (paths scanned in input order). -/
def buildSampleMap (env : RMEnv) (paths : List String) : List (String × List String) :=
  paths.foldl (fun acc p =>
    (env.samplesOf p).foldl (fun acc2 s =>
      match acc2.find? (fun q => q.1 = s) with
      | some _ => acc2.map (fun q => if q.1 = s then (q.1, q.2 ++ [p]) else q)
      | none => acc2 ++ [(s, [p])]) acc) []

/-- `ReadManager::ReadManager(paths, max_open_files)`: record every file's
samples and indexed regions, then open the `max_open_files` smallest files
(`open_initial_files`; `nth_element` is modelled by a stable sort on size,
which selects the same set of smallest files whenever sizes are distinct). -/
def makeRM (env : RMEnv) (paths : List String) (max_open_files : ℕ) : RMState :=
  let st : RMState :=
    { env := env,
      allPaths := paths,
      max_open_files := max_open_files,
      num_files := paths.length,
      closed_readers := paths,
      open_readers := [],
      reader_paths_containing_sample := buildSampleMap env paths,
      possible_regions_in_readers := paths.map (fun p => (p, env.mappedRegions p)),
      samples := sortBy (fun a b => decide (a ≤ b)) ((buildSampleMap env paths).map Prod.fst) }
  let numToOpen := min max_open_files paths.length
  let ordered := sortBy (fun a b => env.size a ≤ env.size b) paths
  (st.open_readers_op (ordered.take numToOpen)).2

/-! ## Read manager: coverage tracking and `find_covered_subregion` -/

/-- Modelled from the spec (`utils/coverage_tracker.hpp` is outside the
repository slice): a coverage tracker is the multiset of added regions;
`coverage` is the per-position depth over a window, `total_coverage` its sum,
and `encompassing_region` the span of everything added. -/
structure CoverageTracker where
  regions : List ContigRegion
  deriving Repr

namespace CoverageTracker

def addT (t : CoverageTracker) (r : ContigRegion) : CoverageTracker :=
  ⟨t.regions ++ [r]⟩

def isEmptyT (t : CoverageTracker) : Bool := t.regions.isEmpty

def encompassing_region (t : CoverageTracker) : Option ContigRegion :=
  match t.regions with
  | [] => none
  | r :: rest =>
    some (rest.foldl (fun acc x => ⟨min acc.begin_ x.begin_, max acc.end_ x.end_⟩) r)

def coverageAt (t : CoverageTracker) (p : ℕ) : ℕ :=
  (t.regions.filter (fun r => r.containsPos p)).length

/-- Per-position coverage over a window. -/
def coverage (t : CoverageTracker) (r : ContigRegion) : List ℕ :=
  (List.range (r.end_ - r.begin_)).map (fun i => t.coverageAt (r.begin_ + i))

def total_coverage (t : CoverageTracker) (r : ContigRegion) : ℕ :=
  (t.coverage r).sum

end CoverageTracker

/-- Running partial sums (`std::partial_sum`). -/
def partialSums (l : List ℕ) : List ℕ :=
  go 0 l
where
  go : ℕ → List ℕ → List ℕ
  | _, [] => []
  | acc, x :: xs => (acc + x) :: go (acc + x) xs

/-- Helper `add(position, tracker)`: record the length-one region at a read
start. -/
def addPosition (p : ℕ) (t : CoverageTracker) : CoverageTracker :=
  t.addT ⟨p, p + 1⟩

/-- The two-argument `max_head_region`: cap the query at the end of the
tracked span unless the tracked span misses or outlasts the query. -/
def maxHeadRegion2 (t : CoverageTracker) (region : GenomicRegion) : GenomicRegion :=
  match t.encompassing_region with
  | some tr =>
    let trg : GenomicRegion := ⟨region.contig, tr.begin_, tr.end_⟩
    if trg.is_after region then region
    else if region.ends_before trg then region
    else region.closed_region trg
  | none => region

/-- The three-argument `max_head_region`: if the capped region's total
coverage fits, return it; otherwise partial-sum the per-position coverage,
find the first position where the running total exceeds `max_coverage`, and
`expand_rhs` the capped region by that distance. -/
def maxHeadRegion3 (t : CoverageTracker) (region : GenomicRegion)
    (max_coverage : ℕ) : GenomicRegion :=
  if t.isEmptyT then region
  else
    let max_region := maxHeadRegion2 t region
    if t.total_coverage max_region.contig_region ≤ max_coverage then max_region
    else
      let sums := partialSums (t.coverage max_region.contig_region)
      let dist := (sums.takeWhile (fun s => s ≤ max_coverage)).length
      max_region.expand_rhs (dist : ℤ)

namespace RMState

/-- Tracker accumulation for one reader inside `find_covered_subregion`:
request `max_reads + 1` positions, add each, and mark the query tail once if
the reader did not exhaust the request. -/
def trackReader (st : RMState) (samples : List String) (region : GenomicRegion)
    (max_reads : ℕ) (acc : CoverageTracker × Bool) (p : String) :
    CoverageTracker × Bool :=
  let positions := extractReadPositions st.env p samples region (max_reads + 1)
  let t := positions.foldl (fun tt pos => addPosition pos tt) acc.1
  if positions.length ≤ max_reads ∧ ¬ acc.2 then
    (t.addT region.tail_position.contig_region, true)
  else (t, acc.2)

/-- Scheduling loop of `find_covered_subregion` (the not-all-open branch):
partition candidates, track the open ones, drop them, open more, repeat. -/
def fcsLoop (samples : List String) (region : GenomicRegion) (max_reads : ℕ) :
    RMState → List String → ℕ → CoverageTracker → CoverageTracker × RMState
  | st, _, 0, t => (t, st)
  | st, readerPaths, fuel + 1, t =>
    match readerPaths with
    | [] => (t, st)
    | _ =>
      let (parts, itr) := st.partition_open readerPaths
      let openNow := parts.drop itr
      let t := (openNow.foldl (fun acc p => st.trackReader samples region max_reads acc p)
                 (t, false)).1
      let remaining := parts.take itr
      let (opened, st') := st.open_readers_op remaining
      let nextPaths := (remaining.filter (fun p => ¬ opened.contains p)) ++ opened
      fcsLoop samples region max_reads st' nextPaths fuel t

/-- `ReadManager::find_covered_subregion(samples, region, max_reads)`. -/
def find_covered_subregion (st : RMState) (samples : List String)
    (region : GenomicRegion) (max_reads : ℕ) : GenomicRegion :=
  if samples.isEmpty || region.isEmptyRegion then region
  else
    let tracker :=
      if st.all_readers_are_open then
        (st.open_readers.foldl (fun acc p => st.trackReader samples region max_reads acc p)
          (⟨[]⟩, false)).1
      else
        (fcsLoop samples region max_reads st (st.get_possible_reader_paths samples region)
          (st.num_files + 1) ⟨[]⟩).1
    maxHeadRegion3 tracker region max_reads

end RMState

/-! ## Haplotype generator

The generator consumes alleles and a `HaplotypeTree`.  The tree is an
external collaborator by contract (spec data model), so every tree-touching
definition is parameterised by a `TreeOps` record of its operations; the
genome walkers (whose source is also outside the slice) are likewise
parameters.  Everything else is translated from the `HaplotypeGenerator`
translation unit. -/

/-- Modelled from the spec: an allele `{region, sequence}`. -/
structure Allele where
  region : GenomicRegion
  sequence : List Char
  deriving DecidableEq, Repr

namespace Allele

/-- Modelled from the spec: a position allele has `|region| = 1`. -/
def is_position (a : Allele) : Bool := a.region.size = 1

/-- Modelled from the spec: an insertion has an empty region and a non-empty
sequence. -/
def is_insertion (a : Allele) : Bool := a.region.isEmptyRegion && ¬ a.sequence.isEmpty

/-- Modelled from the spec: a deletion has an empty sequence. -/
def is_deletion (a : Allele) : Bool := a.sequence.isEmpty

def is_same_region (a : Allele) (r : GenomicRegion) : Bool := a.region = r

end Allele

/-- Region order (contig, begin, end) used to keep allele sets sorted. -/
def regionLe (l r : GenomicRegion) : Bool :=
  if l.contig ≠ r.contig then decide (l.contig ≤ r.contig)
  else if l.begin_ ≠ r.begin_ then l.begin_ ≤ r.begin_
  else l.end_ ≤ r.end_

/-- Allele order: by region, then sequence. -/
def alleleLe (l r : Allele) : Bool :=
  if l.region = r.region then ¬ charListLt r.sequence l.sequence
  else regionLe l.region r.region

/-- Modelled from the spec: a variant is a pair of alleles at one region. -/
structure VariantHG where
  region : GenomicRegion
  ref_sequence : List Char
  alt_sequence : List Char
  deriving DecidableEq, Repr

def VariantHG.ref_allele (v : VariantHG) : Allele := ⟨v.region, v.ref_sequence⟩

def VariantHG.alt_allele (v : VariantHG) : Allele := ⟨v.region, v.alt_sequence⟩

/-- `decompose`: both alleles of every candidate, sorted and deduplicated. -/
def decompose (variants : List VariantHG) : List Allele :=
  ((sortBy alleleLe (variants.flatMap (fun v => [v.ref_allele, v.alt_allele])))).dedup

/-- External haplotype-tree contract (spec data model): the operations the
generator uses, over an abstract tree type `T` producing haplotypes `H`. -/
structure TreeOps (T H : Type) where
  num_haplotypes : T → ℕ
  is_empty : T → Bool
  encompassing_region : T → GenomicRegion
  clearAll : T → T
  clearRegion : GenomicRegion → T → T
  extendWith : Allele → T → T
  spliceAll : List Allele → T → T
  extract_haplotypes : GenomicRegion → T → List H

/-- External genome-walker contract: each walker picks a successor active
region from the current one, the reads and the remaining alleles.  A `none`
lagged walker models the `boost::optional` member being unset (lagging
disabled). -/
structure Walkers where
  defaultW : GenomicRegion → List GenomicRegion → List Allele → GenomicRegion
  holdoutW : GenomicRegion → List GenomicRegion → List Allele → GenomicRegion
  laggedW : Option (GenomicRegion → List GenomicRegion → List Allele → GenomicRegion)

/-- A holdout frame `{alleles, region}`. -/
structure HoldoutFrame where
  alleles : List Allele
  region : GenomicRegion
  deriving DecidableEq, Repr

/-- `Policies::Lagging`. -/
inductive LaggingPolicy where
  | none_
  | conservative
  | aggressive
  deriving DecidableEq, Repr

/-- `Policies::HaplotypeLimits {target, holdout, overflow}`. -/
structure HaplotypeLimits where
  target : ℕ
  holdout : ℕ
  overflow : ℕ
  deriving DecidableEq, Repr

/-- `HaplotypeGenerator::Policies`. -/
structure HGPolicies where
  lagging : LaggingPolicy
  haplotype_limits : HaplotypeLimits
  max_holdout_depth : ℕ
  deriving DecidableEq, Repr

/-- Generator state over an abstract tree type `T`: the mutable members of
`HaplotypeGenerator` (the cached `next_active_region_` included). -/
structure GenState (T : Type) where
  policies : HGPolicies
  min_flank_pad : ℕ
  tree : T
  alleles : List Allele
  reads : List GenomicRegion
  rightmost_allele : Allele
  active_region : GenomicRegion
  next_active_region : Option GenomicRegion
  active_holdouts : List HoldoutFrame
  holdout_region : Option GenomicRegion

namespace HG

/-- `overlap_range` on the sorted allele set, as the sublist of overlapping
alleles. -/
def overlapRange (alleles : List Allele) (r : GenomicRegion) : List Allele :=
  alleles.filter (fun a => a.region.overlaps r)

/-- `contained_range`: alleles whose region is contained in `r` (insertions
at the boundary count as contained). -/
def containedRange (alleles : List Allele) (r : GenomicRegion) : List Allele :=
  alleles.filter (fun a =>
    a.region.contig = r.contig && r.begin_ ≤ a.region.begin_ && a.region.end_ ≤ r.end_)

def countOverlapped (alleles : List Allele) (r : GenomicRegion) : ℕ :=
  (overlapRange alleles r).length

def hasOverlapped (alleles : List Allele) (r : GenomicRegion) : Bool :=
  alleles.any (fun a => a.region.overlaps r)

def hasContained (alleles : List Allele) (r : GenomicRegion) : Bool :=
  ¬ (containedRange alleles r).isEmpty

/-- `MappableFlatSet::erase_overlapped`. -/
def eraseOverlapped (alleles : List Allele) (r : GenomicRegion) : List Allele :=
  alleles.filter (fun a => ¬ a.region.overlaps r)

/-- `MappableFlatSet::erase_all`. -/
def eraseAll (alleles : List Allele) (doomed : List Allele) : List Allele :=
  alleles.filter (fun a => ¬ doomed.contains a)

/-- `MappableFlatSet::insert` of a batch, keeping the set sorted. -/
def insertAll (alleles : List Allele) (added : List Allele) : List Allele :=
  added.foldl (fun acc a => if acc.contains a then acc else sortInsert alleleLe a acc) alleles

/-- The region of the rightmost mappable of a non-empty range
(`rightmost_region`; the last element of a sorted range). -/
def rightmostRegion (alleles : List Allele) : GenomicRegion :=
  ((alleles.getLast?).map Allele.region).getD ⟨"", 0, 0⟩

/-- `extract_regions` with the adjacent `unique` pass of `extract_holdouts`. -/
def extractRegions (alleles : List Allele) : List GenomicRegion :=
  uniqueAdj (fun a b => a = b) (alleles.map Allele.region)

/-- Modelled from the spec (`extract_mutually_exclusive_regions` lives in the
mappable algorithms outside the slice): group overlapping allele regions into
connected components and return each component's encompassing region;
different components do not interact. -/
def extractMutuallyExclusiveRegions (alleles : List Allele) : List GenomicRegion :=
  go (extractRegions alleles)
where
  go : List GenomicRegion → List GenomicRegion
  | [] => []
  | r :: rest => merge r rest
  merge : GenomicRegion → List GenomicRegion → List GenomicRegion
  | cur, [] => [cur]
  | cur, r :: rest =>
    if cur.overlaps r then merge (cur.encompassing r) rest
    else cur :: merge r rest

/-- Modelled from the spec (tree utility outside the slice): extend the tree
with each allele in turn, stopping once the haplotype count exceeds the
limit; returns the tree and the unconsumed range starting at the allele
that pushed it over (the source's returned iterator). -/
def extendTreeUntil {T H : Type} (ops : TreeOps T H) (limit : ℕ) :
    T → List Allele → T × List Allele
  | t, [] => (t, [])
  | t, a :: rest =>
    let t := ops.extendWith a t
    if limit < ops.num_haplotypes t then (t, a :: rest)
    else extendTreeUntil ops limit t rest

/-- Modelled from the spec: unbounded tree extension (`extend_tree`). -/
def extendTree {T H : Type} (ops : TreeOps T H) (t : T) (alleles : List Allele) : T :=
  alleles.foldl (fun acc a => ops.extendWith a acc) t

/-- `can_remove_entire_passed_region`. -/
def canRemoveEntirePassedRegion (next_active : GenomicRegion)
    (passed : List Allele) : Bool :=
  passed.isEmpty || ¬ (rightmostRegion passed).overlaps next_active

/-- `requires_staged_removal`: the last passed allele is empty-region and some
earlier allele at a different region is a position allele. -/
def requiresStagedRemoval (passed : List Allele) : Bool :=
  match passed.getLast? with
  | none => false
  | some last_allele =>
    if ¬ last_allele.region.isEmptyRegion then false
    else
      match (passed.reverse.drop 1).find?
          (fun a => ¬ a.is_same_region last_allele.region) with
      | some a => a.is_position
      | none => false

/-- `sum_indel_sizes`. -/
def sumIndelSizes (alleles : List Allele) : ℕ :=
  alleles.foldl (fun acc a =>
    if a.is_insertion then acc + a.sequence.length
    else if a.is_deletion then acc + a.region.size
    else acc) 0

end HG

namespace HG

variable {T H : Type}

/-- `in_holdout_mode`. -/
def inHoldoutMode (s : GenState T) : Bool := ¬ s.active_holdouts.isEmpty

/-- `is_lagging_enabled`: the optional lagged walker is set. -/
def isLaggingEnabled (wk : Walkers) : Bool := wk.laggedW.isSome

/-- `can_extract_holdouts` (the region argument is unused in the source). -/
def canExtractHoldouts (s : GenState T) (_r : GenomicRegion) : Bool :=
  s.active_holdouts.length < s.policies.max_holdout_depth

/-- `can_reintroduce_holdouts`. -/
def canReintroduceHoldouts (s : GenState T) : Bool :=
  ¬ inHoldoutMode s ||
  (match s.holdout_region with
   | none => true
   | some hr =>
     ¬ s.active_region.ends_before hr ||
     ¬ hasOverlapped s.alleles (GenomicRegion.right_overhang_region hr s.active_region))

/-- `reintroduce_holdouts`: splice the top frame back into the tree, catch the
tree up over the region walked past the holdouts, return the alleles to the
set and pop the frame. -/
def reintroduceHoldouts (ops : TreeOps T H) (s : GenState T) : GenState T :=
  match s.active_holdouts with
  | [] => s
  | frame :: rest =>
    let tree := ops.spliceAll frame.alleles s.tree
    let tree :=
      match s.holdout_region with
      | some hr =>
        if hr.ends_before s.active_region then
          let ext := GenomicRegion.right_overhang_region s.active_region hr
          extendTree ops tree (containedRange s.alleles ext)
        else tree
      | none => tree
    { s with tree := tree,
             alleles := insertAll s.alleles frame.alleles,
             active_holdouts := rest,
             holdout_region := if rest.isEmpty then none else s.holdout_region }

/-- `require_more_holdouts`: `estimate_num_haplotype` is `exp2` of the
overlap count (the source casts the double to `unsigned`; the counts in play
are far below the overflow boundary). -/
def requireMoreHoldouts (alleles : List Allele) (next : GenomicRegion) (limit : ℕ) : Bool :=
  ¬ alleles.isEmpty && limit < 2 ^ (countOverlapped alleles next)

/-- Encompassing region of a non-empty allele list. -/
def encompassingOfAlleles (alleles : List Allele) : GenomicRegion :=
  match alleles.map Allele.region with
  | [] => ⟨"", 0, 0⟩
  | r :: rest => rest.foldl (fun acc x => acc.encompassing x) r

/-- The do-while loop of `extract_holdouts`: repeatedly pop the
most-interacting region into a new holdout frame, re-walk, and continue while
the estimated haplotype count still exceeds the holdout limit.  Fuel equals
the number of candidate regions (the source would run off the empty
`interaction_counts` vector beyond that). -/
def extractHoldoutsGo (wk : Walkers) (reads : List GenomicRegion) (holdoutLimit : ℕ) :
    List Allele → List (GenomicRegion × ℕ) → GenomicRegion →
    List Allele → List HoldoutFrame → ℕ → List Allele × List HoldoutFrame
  | _, _, _, newHoldouts, frames, 0 => (newHoldouts, frames)
  | activeAlleles, counts, nextReg, newHoldouts, frames, fuel + 1 =>
    match counts.getLast? with
    | none => (newHoldouts, frames)
    | some (chosen, _) =>
      let frameAlleles := activeAlleles.filter (fun a => a.is_same_region chosen)
      let frames := (⟨frameAlleles, chosen⟩ : HoldoutFrame) :: frames
      let newHoldouts := newHoldouts ++ frameAlleles
      let activeAlleles := activeAlleles.filter (fun a => ¬ a.is_same_region chosen)
      let nextReg := wk.defaultW nextReg.head_region reads activeAlleles
      let counts := counts.dropLast
      if requireMoreHoldouts activeAlleles nextReg holdoutLimit then
        extractHoldoutsGo wk reads holdoutLimit activeAlleles counts nextReg newHoldouts frames fuel
      else (newHoldouts, frames)

/-- `extract_holdouts`: group the alleles contained in the stalled region by
region, order the regions by interaction count, move whole region-groups onto
the holdout stack until the remainder is estimated to fit, and erase the
holdouts from the allele set (`std::sort` on the counts is modelled stably;
its tie order is unspecified in the source). -/
def extractHoldouts (wk : Walkers) (s : GenState T) (next_active : GenomicRegion) :
    GenState T :=
  let activeAlleles := containedRange s.alleles next_active
  let activeRegions := extractRegions activeAlleles
  let counts := activeRegions.map (fun r => (r, countOverlapped activeAlleles r))
  let counts := sortBy (fun a b => a.2 ≤ b.2) counts
  let (newHoldouts, frames) :=
    extractHoldoutsGo wk s.reads s.policies.haplotype_limits.holdout
      activeAlleles counts next_active [] [] (counts.length + 1)
  let newHoldouts := sortBy alleleLe newHoldouts
  let hr := match s.holdout_region with
    | some r => some (r.encompassing (encompassingOfAlleles newHoldouts))
    | none => some (encompassingOfAlleles newHoldouts)
  { s with active_holdouts := frames ++ s.active_holdouts,
           holdout_region := hr,
           alleles := eraseAll s.alleles newHoldouts }

/-- Leftmost read overlapping a region. -/
def leftmostOverlappedRead (reads : List GenomicRegion) (r : GenomicRegion) :
    Option GenomicRegion :=
  match reads.filter (fun x => x.overlaps r) with
  | [] => none
  | h :: t => some (t.foldl (fun acc x => if regionLe x acc then x else acc) h)

/-- Rightmost read overlapping a region. -/
def rightmostOverlappedRead (reads : List GenomicRegion) (r : GenomicRegion) :
    Option GenomicRegion :=
  match reads.filter (fun x => x.overlaps r) with
  | [] => none
  | h :: t => some (t.foldl (fun acc x => if regionLe acc x then x else acc) h)

/-- `calculate_haplotype_region`: the active region expanded so overlapping
reads fit, with `2 * sum_indel_sizes + min_flank_pad` of padding, biased
right when the leftmost read sits near the contig start. -/
def calculateHaplotypeRegion (s : GenState T) : GenomicRegion :=
  let overlapped := overlapRange s.alleles s.active_region
  let pad := 2 * sumIndelSizes overlapped + s.min_flank_pad
  match leftmostOverlappedRead s.reads s.active_region,
        rightmostOverlappedRead s.reads s.active_region with
  | some lhs, some rhs =>
    let unpadded := lhs.encompassing rhs
    if lhs.begin_ < pad / 2 then
      let lpad := lhs.begin_
      unpadded.expand2 lpad (pad - lpad)
    else unpadded.expand2 (pad / 2) (pad / 2)
  | _, _ => s.active_region.expand2 (pad / 2) (pad / 2)

/-- `HaplotypeGenerator::progress(to)`: record the pending region and, when
not in holdout mode, retire the passed left overhang from the allele set and
the tree (wholesale, staged around a boundary insertion, or keeping the
boundary base). -/
def progress (ops : TreeOps T H) (s : GenState T) (to_ : GenomicRegion) : GenState T :=
  if to_ = s.active_region then s
  else
    let s := { s with next_active_region := some to_ }
    if inHoldoutMode s then s
    else if s.active_region.begins_before to_ then
      let passed := GenomicRegion.left_overhang_region s.active_region to_
      let passedAlleles := overlapRange s.alleles passed
      if passedAlleles.isEmpty then s
      else if canRemoveEntirePassedRegion to_ passedAlleles then
        { s with alleles := eraseOverlapped s.alleles passed,
                 tree := ops.clearRegion passed s.tree }
      else if requiresStagedRemoval passedAlleles then
        let fr := passed.expand_rhs (-1)
        let s := { s with alleles := eraseOverlapped s.alleles fr,
                          tree := ops.clearRegion fr s.tree }
        let sr := fr.tail_region
        { s with alleles := eraseOverlapped s.alleles sr,
                 tree := ops.clearRegion sr s.tree }
      else
        let rr := passed.expand_rhs (-1)
        { s with alleles := eraseOverlapped s.alleles rr,
                 tree := ops.clearRegion rr s.tree }
    else if to_.is_after s.active_region then { s with tree := ops.clearAll s.tree }
    else s

/-- Indicator-clearing scan of the lagged update: clear indicator regions
from the test tree until the haplotype count drops under the target. -/
def clearIndicators (ops : TreeOps T H) (target : ℕ) : T → List GenomicRegion → T
  | t, [] => t
  | t, r :: rest =>
    if ops.num_haplotypes t < target then t
    else clearIndicators ops target (ops.clearRegion r t) rest

/-- Novel-region loop of the lagged update: add mutually exclusive novel
regions one at a time while the test tree stays within the target, undoing
the last addition (and restoring a preceding insertion region) on overshoot. -/
def novelLoop (ops : TreeOps T H) (limits : HaplotypeLimits)
    (novelAlleles : List Allele) (allRegions : List GenomicRegion) :
    T → ℕ → List GenomicRegion → T × ℕ
  | t, numAdded, [] => (t, numAdded)
  | t, numAdded, region :: rest =>
    let interacting := containedRange novelAlleles region
    let (t, leftover) := extendTreeUntil ops limits.overflow t interacting
    if ¬ leftover.isEmpty then (ops.clearAll t, numAdded)
    else
      let numAdded := numAdded + 1
      if limits.target < ops.num_haplotypes t then
        if 1 < numAdded then
          let t := ops.clearRegion region t
          let numAdded := numAdded - 1
          let prev := allRegions.getD (numAdded - 1) region
          if prev.isEmptyRegion then
            (extendTree ops t (containedRange novelAlleles prev), numAdded)
          else (t, numAdded)
        else (t, numAdded)
      else if ops.num_haplotypes t = limits.target then (t, numAdded)
      else novelLoop ops limits novelAlleles allRegions t numAdded rest

/-- `update_lagged_next_active_region`: probe how far the tree can lag on a
copy, progressively clearing indicator regions and adding mutually exclusive
novel regions, falling back to the walker's regions where nothing fits. -/
def updateLaggedNextActiveRegion (ops : TreeOps T H) (wk : Walkers)
    (s : GenState T) : GenomicRegion :=
  if s.active_region.contains_r s.rightmost_allele.region then
    (s.rightmost_allele.region.tail_region).shift 2
  else
    let maxLagged :=
      if ¬ inHoldoutMode s then
        (wk.laggedW.getD wk.defaultW) s.active_region s.reads s.alleles
      else wk.holdoutW s.active_region s.reads s.alleles
    if ¬ s.active_region.overlaps maxLagged then maxLagged
    else
      let stepA : GenomicRegion ⊕ T :=
        if s.active_region.begins_before maxLagged then
          let novel := GenomicRegion.right_overhang_region maxLagged s.active_region
          let novelAlleles := overlapRange s.alleles novel
          let (tt, leftover) :=
            extendTreeUntil ops s.policies.haplotype_limits.target s.tree novelAlleles
          if leftover.isEmpty then .inl (ops.encompassing_region tt)
          else
            let tt := ops.clearRegion novel tt
            let passed := GenomicRegion.left_overhang_region s.active_region maxLagged
            let passedAlleles := overlapRange s.alleles passed
            if canRemoveEntirePassedRegion maxLagged passedAlleles then
              .inr (ops.clearRegion passed tt)
            else if requiresStagedRemoval passedAlleles then
              let fr := passed.expand_rhs (-1)
              .inr (ops.clearRegion fr.tail_region (ops.clearRegion fr tt))
            else .inr (ops.clearRegion (passed.expand_rhs (-1)) tt)
        else .inr s.tree
      match stepA with
      | .inl r => r
      | .inr testTree =>
        let novel := GenomicRegion.right_overhang_region maxLagged s.active_region
        let novelAlleles := overlapRange s.alleles novel
        let mutexNovel := extractMutuallyExclusiveRegions novelAlleles
        let indicator := GenomicRegion.overlapped_region s.active_region maxLagged
        let indicatorAlleles := overlapRange s.alleles indicator
        let mutexIndicator := extractMutuallyExclusiveRegions indicatorAlleles
        let mutexNovel :=
          match mutexIndicator.getLast?, mutexNovel.head? with
          | some a, some b => if a = b then mutexNovel.drop 1 else mutexNovel
          | _, _ => mutexNovel
        let testTree :=
          if ¬ inHoldoutMode s then
            clearIndicators ops s.policies.haplotype_limits.target testTree mutexIndicator
          else testTree
        let (testTree, _) :=
          novelLoop ops s.policies.haplotype_limits novelAlleles mutexNovel testTree 0 mutexNovel
        let nxt := if ¬ ops.is_empty testTree then ops.encompassing_region testTree else novel
        if nxt = s.active_region then wk.defaultW s.active_region s.reads s.alleles else nxt

/-- `update_next_active_region` (the source caches the result in the mutable
`next_active_region_`; here the cached value short-circuits). -/
def updateNextActiveRegion (ops : TreeOps T H) (wk : Walkers) (s : GenState T) :
    GenomicRegion :=
  match s.next_active_region with
  | some r => r
  | none =>
    if isLaggingEnabled wk || inHoldoutMode s then updateLaggedNextActiveRegion ops wk s
    else wk.defaultW s.active_region s.reads s.alleles

/-- Common tail of `generate`: extract haplotypes over the padded haplotype
region and clear the tree when lagging is disabled. -/
def finishPacket (ops : TreeOps T H) (wk : Walkers) (s : GenState T) :
    Except (GenomicRegion × ℕ) ((List H × GenomicRegion) × GenState T) :=
  let haps := ops.extract_haplotypes (calculateHaplotypeRegion s) s.tree
  let s := if ¬ isLaggingEnabled wk then { s with tree := ops.clearAll s.tree } else s
  .ok ((haps, s.active_region), s)

/-- `HaplotypeGenerator::generate`.  The error value is the
`HaplotypeOverflow` payload `(region, size)`: the generator's current active
region and the tree's haplotype count at the throw site. -/
def generate (ops : TreeOps T H) (wk : Walkers) (s : GenState T) :
    Except (GenomicRegion × ℕ) ((List H × GenomicRegion) × GenState T) :=
  if s.alleles.isEmpty then .ok (([], s.active_region), s)
  else if inHoldoutMode s && canReintroduceHoldouts s then
    let s1 := reintroduceHoldouts ops s
    if s.policies.haplotype_limits.overflow < ops.num_haplotypes s1.tree then
      .error (s1.active_region, ops.num_haplotypes s1.tree)
    else
      finishPacket ops wk
        { s1 with active_region := ops.encompassing_region s1.tree,
                  next_active_region := none }
  else
    let nxt := updateNextActiveRegion ops wk s
    let s := { s with next_active_region := some nxt }
    if nxt.is_after s.rightmost_allele.region then .ok (([], nxt), s)
    else
      let s := progress ops s nxt
      let novelRegion :=
        if ¬ ops.is_empty s.tree then GenomicRegion.right_overhang_region nxt s.active_region
        else nxt
      let novelAlleles := overlapRange s.alleles novelRegion
      let (tree1, leftover) :=
        extendTreeUntil ops s.policies.haplotype_limits.holdout s.tree novelAlleles
      let s := { s with tree := tree1 }
      if ¬ leftover.isEmpty then
        let s := { s with next_active_region := none }
        if canExtractHoldouts s novelRegion then
          let s := extractHoldouts wk s novelRegion
          let s := { s with tree := ops.clearRegion novelRegion s.tree }
          let nxt2 := updateNextActiveRegion ops wk s
          let s := { s with active_region := nxt2, next_active_region := none }
          let newNovel := overlapRange s.alleles s.active_region
          let (tree2, leftover2) :=
            extendTreeUntil ops s.policies.haplotype_limits.overflow s.tree newNovel
          let s := { s with tree := tree2 }
          if ¬ leftover2.isEmpty then .error (s.active_region, ops.num_haplotypes tree2)
          else finishPacket ops wk s
        else
          let (tree3, leftover3) :=
            extendTreeUntil ops s.policies.haplotype_limits.overflow s.tree leftover
          let s := { s with tree := tree3, active_region := ops.encompassing_region tree3 }
          if ¬ leftover3.isEmpty then .error (s.active_region, ops.num_haplotypes tree3)
          else finishPacket ops wk s
      else
        finishPacket ops wk { s with active_region := nxt, next_active_region := none }

end HG

/-- `max_included(max_haplotypes) = 2 * max(1, log2 max_haplotypes) - 1`. -/
def max_included (max_haplotypes : ℕ) : ℕ :=
  2 * max 1 (Nat.log2 max_haplotypes) - 1

/-- `HaplotypeGenerator` constructor: decompose the candidates into a sorted
unique allele set, remember the rightmost allele, and start just before the
leftmost one. -/
def mkGenerator {T : Type} (policies : HGPolicies) (min_flank_pad : ℕ) (tree0 : T)
    (candidates : List VariantHG) (reads : List GenomicRegion) : GenState T :=
  let alleles := decompose candidates
  { policies := policies,
    min_flank_pad := min_flank_pad,
    tree := tree0,
    alleles := alleles,
    reads := reads,
    rightmost_allele := (alleles.getLast?).getD (Allele.mk (GenomicRegion.mk "" 0 0) []),
    active_region := GenomicRegion.shift
      (((alleles.head?).map (fun a => a.region.head_region)).getD (GenomicRegion.mk "" 0 0)) (-1),
    next_active_region := none,
    active_holdouts := [],
    holdout_region := none }

/-! ## HaplotypeGenerator::Builder -/

/-- Builder state: the policies being accumulated and the flank pad. -/
structure HGBuilder where
  policies : HGPolicies
  min_flank_pad : ℕ
  deriving DecidableEq, Repr

namespace HGBuilder

/-- `Builder::set_lagging_policy`. -/
def set_lagging_policy (b : HGBuilder) (p : LaggingPolicy) : HGBuilder :=
  { b with policies := { b.policies with lagging := p } }

/-- `Builder::set_target_limit(n)`: sets the target, then — under a guard
that compares the holdout limit WITH ITSELF (`holdout >= holdout`), which
always holds — sets both the holdout and overflow limits to `n + 1`. -/
def set_target_limit (b : HGBuilder) (n : ℕ) : HGBuilder :=
  let limits := { b.policies.haplotype_limits with target := n }
  let limits :=
    if b.policies.haplotype_limits.holdout ≥ b.policies.haplotype_limits.holdout then
      { limits with holdout := n + 1, overflow := n + 1 }
    else limits
  { b with policies := { b.policies with haplotype_limits := limits } }

/-- `Builder::set_holdout_limit`. -/
def set_holdout_limit (b : HGBuilder) (n : ℕ) : HGBuilder :=
  { b with policies := { b.policies with
      haplotype_limits := { b.policies.haplotype_limits with holdout := n } } }

/-- `Builder::set_overflow_limit`. -/
def set_overflow_limit (b : HGBuilder) (n : ℕ) : HGBuilder :=
  { b with policies := { b.policies with
      haplotype_limits := { b.policies.haplotype_limits with overflow := n } } }

/-- `Builder::set_max_holdout_depth`. -/
def set_max_holdout_depth (b : HGBuilder) (n : ℕ) : HGBuilder :=
  { b with policies := { b.policies with max_holdout_depth := n } }

/-- `Builder::set_min_flank_pad`. -/
def set_min_flank_pad (b : HGBuilder) (n : ℕ) : HGBuilder :=
  { b with min_flank_pad := n }

end HGBuilder

/-! ## Concrete instantiations used by the claim runs -/

/-- Integer score model for the concrete assembler runs.  Every transition
score these runs compute falls in the special cases of
`compute_transition_score` (`total = 0`, `weight = 0`) or has
`weight = total`, where the source's f32 value is `|log 1| = 0` exactly; the
`absLog` instantiation therefore agrees with the source on every score that
arises (see `c1_absLog_only_trivial_ratios` below). -/
def intScores : ScoreModel ℤ :=
  { zero := 0, maxScore := 100, blockedScore := 10000, add := (· + ·),
    lt := fun x y => decide (x < y), le := fun x y => decide (x ≤ y),
    beq := fun x y => decide (x = y), absLog := fun _ _ => 0 }

/-- A second score model whose `absLog` disagrees with `intScores.absLog`
everywhere except at weight-ratio 1; runs that only meet ratio-1 scores are
insensitive to the difference. -/
def intScoresPoison : ScoreModel ℤ :=
  { intScores with absLog := fun w W => if w = W then 0 else 517 }

/-- Discriminator for `BadReferenceSequence` errors. -/
def AsmError.isBadRef : AsmError → Bool
  | .badReferenceSequence _ => true
  | .runtimeError _ => false

/-- Whether an insertion outcome failed with `BadReferenceSequence`. -/
def badRefOutcome {S : Type} (r : Except AsmError (Asm S)) : Bool :=
  match r with
  | .error e => e.isBadRef
  | .ok _ => false

/-- Scenario S1 of the spec (claim C3): kmer size 5, reference
`ACGTACGTACGTAC`.  The reference has period 4, so its 10 kmers name only 4
distinct vertices and the reference edges form a cycle with parallels. -/
def c3base : Asm ℤ :=
  match Asm.insert_reference_into_empty_graph intScores (Asm.mk0 5) "ACGTACGTACGTAC".toList with
  | .ok a => a
  | .error _ => Asm.mk0 5

/-- Claim C3 state: the periodic reference plus ten copies of the
single-substitution read `ACGTACATACGTAC`. -/
def c3asm : Asm ℤ := Asm.insertReads intScores c3base "ACGTACATACGTAC".toList 10

/-- Claim C1 run: kmer size 4, a 20-base reference with pairwise distinct
kmers. -/
def c1base : Asm ℤ :=
  match Asm.insert_reference_into_empty_graph intScores (Asm.mk0 4) "GCTAAAGACAATTACATAAC".toList with
  | .ok a => a
  | .error _ => Asm.mk0 4

/-- Claim C1 state: the reference plus one read carrying two well-separated
substitutions (positions 5 and 14), producing two disjoint bubbles on one
shortest path. -/
def c1asm : Asm ℤ := Asm.insert_read intScores c1base "GCTAAGGACAATTAGATAAC".toList

/-- Claim C9 run: kmer size 4, a 16-base reference with distinct kmers. -/
def c9base : Asm ℤ :=
  match Asm.insert_reference_into_empty_graph intScores (Asm.mk0 4) "CCGTAATGCCTTTCCC".toList with
  | .ok a => a
  | .error _ => Asm.mk0 4

/-- Claim C9 state: five reference-supporting reads, one read with a
substitution at position 8, and two copies of that read's suffix starting
inside the bubble.  The weight pattern makes the branch edge into the bubble
survive the first prune only by virtue of the reference head's in-weight,
which the first prune's flank trimming then removes. -/
def c9asm : Asm ℤ :=
  let a := Asm.insertReads intScores c9base "CCGTAATGCCTTTCCC".toList 5
  let a := Asm.insert_read intScores a "CCGTAATGACTTTCCC".toList
  Asm.insertReads intScores a "ATGACTTTCCC".toList 2

/-- Evaluated form of `c9asm` (the insertions run once; see `c9asm_eval`). -/
def c9lit : Asm ℤ :=
  { k := 4,
    nextVid := 17,
    nextEid := 17,
    verts := [{ vid := 0, index := 0, kmer := ['C', 'C', 'G', 'T'], is_reference := true },
              { vid := 1, index := 1, kmer := ['C', 'G', 'T', 'A'], is_reference := true },
              { vid := 2, index := 2, kmer := ['G', 'T', 'A', 'A'], is_reference := true },
              { vid := 3, index := 3, kmer := ['T', 'A', 'A', 'T'], is_reference := true },
              { vid := 4, index := 4, kmer := ['A', 'A', 'T', 'G'], is_reference := true },
              { vid := 5, index := 5, kmer := ['A', 'T', 'G', 'C'], is_reference := true },
              { vid := 6, index := 6, kmer := ['T', 'G', 'C', 'C'], is_reference := true },
              { vid := 7, index := 7, kmer := ['G', 'C', 'C', 'T'], is_reference := true },
              { vid := 8, index := 8, kmer := ['C', 'C', 'T', 'T'], is_reference := true },
              { vid := 9, index := 9, kmer := ['C', 'T', 'T', 'T'], is_reference := true },
              { vid := 10, index := 10, kmer := ['T', 'T', 'T', 'C'], is_reference := true },
              { vid := 11, index := 11, kmer := ['T', 'T', 'C', 'C'], is_reference := true },
              { vid := 12, index := 12, kmer := ['T', 'C', 'C', 'C'], is_reference := true },
              { vid := 13, index := 13, kmer := ['A', 'T', 'G', 'A'], is_reference := false },
              { vid := 14, index := 14, kmer := ['T', 'G', 'A', 'C'], is_reference := false },
              { vid := 15, index := 15, kmer := ['G', 'A', 'C', 'T'], is_reference := false },
              { vid := 16, index := 16, kmer := ['A', 'C', 'T', 'T'], is_reference := false }],
    edges := [{ eid := 0, src := 0, dst := 1, weight := 6, is_reference := true, transition_score := 0 },
              { eid := 1, src := 1, dst := 2, weight := 6, is_reference := true, transition_score := 0 },
              { eid := 2, src := 2, dst := 3, weight := 6, is_reference := true, transition_score := 0 },
              { eid := 3, src := 3, dst := 4, weight := 6, is_reference := true, transition_score := 0 },
              { eid := 4, src := 4, dst := 5, weight := 5, is_reference := true, transition_score := 0 },
              { eid := 5, src := 5, dst := 6, weight := 5, is_reference := true, transition_score := 0 },
              { eid := 6, src := 6, dst := 7, weight := 5, is_reference := true, transition_score := 0 },
              { eid := 7, src := 7, dst := 8, weight := 5, is_reference := true, transition_score := 0 },
              { eid := 8, src := 8, dst := 9, weight := 5, is_reference := true, transition_score := 0 },
              { eid := 9, src := 9, dst := 10, weight := 8, is_reference := true, transition_score := 0 },
              { eid := 10, src := 10, dst := 11, weight := 8, is_reference := true, transition_score := 0 },
              { eid := 11, src := 11, dst := 12, weight := 8, is_reference := true, transition_score := 0 },
              { eid := 12, src := 4, dst := 13, weight := 1, is_reference := false, transition_score := 0 },
              { eid := 13, src := 13, dst := 14, weight := 3, is_reference := false, transition_score := 0 },
              { eid := 14, src := 14, dst := 15, weight := 3, is_reference := false, transition_score := 0 },
              { eid := 15, src := 15, dst := 16, weight := 3, is_reference := false, transition_score := 0 },
              { eid := 16, src := 16, dst := 9, weight := 3, is_reference := false, transition_score := 0 }],
    reference_kmers := [['C', 'C', 'G', 'T'],
                        ['C', 'G', 'T', 'A'],
                        ['G', 'T', 'A', 'A'],
                        ['T', 'A', 'A', 'T'],
                        ['A', 'A', 'T', 'G'],
                        ['A', 'T', 'G', 'C'],
                        ['T', 'G', 'C', 'C'],
                        ['G', 'C', 'C', 'T'],
                        ['C', 'C', 'T', 'T'],
                        ['C', 'T', 'T', 'T'],
                        ['T', 'T', 'T', 'C'],
                        ['T', 'T', 'C', 'C'],
                        ['T', 'C', 'C', 'C']],
    reference_head_position := 0 }

/-- Claim C4 counterexample environment: two files of equal size. -/
def c4env : RMEnv :=
  { size := fun _ => 7,
    samplesOf := fun _ => ["S"],
    mappedRegions := fun _ => [],
    readPositions := fun _ => [] }

/-- Claim C4 counterexample manager: both equal-sized files requested open. -/
def c4rm : RMState := makeRM c4env ["a", "b"] 2

/-- Scenario S5 environment (claim C5): one file whose read starts in
`chr1` are 1000, 1001, 1002, 1050, 1500, 1600. -/
def c5env : RMEnv :=
  { size := fun _ => 100,
    samplesOf := fun _ => ["S"],
    mappedRegions := fun _ => [⟨"chr1", 0, 10000⟩],
    readPositions := fun _ => [("S", "chr1", 1000), ("S", "chr1", 1001), ("S", "chr1", 1002),
                               ("S", "chr1", 1050), ("S", "chr1", 1500), ("S", "chr1", 1600)] }

/-- Scenario S5 manager. -/
def c5rm : RMState := makeRM c5env ["f1"] 10

/-- Scenario S5 query region `chr1:[1000, 2000)`. -/
def c5region : GenomicRegion := ⟨"chr1", 1000, 2000⟩

/-! ## Claim-support definitions -/

namespace Asm

variable {S : Type}

/-- The state reached by `prune` just before reference-flank pruning, when no
early `return true` fired: `none` when the unique-path check failed on entry
or when one of the size checks returned early. -/
def pruneMid (min_weight : ℕ) (a : Asm S) : Option (Asm S) :=
  if ¬ a.is_reference_unique_path then none
  else if a.numVertices < 2 then none
  else
    let old := a.numVertices
    match pruneResize (a.remove_trivial_nonreference_cycles) old with
    | .inr _ => none
    | .inl (a1, old) =>
      match pruneResize ((a1.remove_low_weight_edges min_weight).remove_disconnected_vertices) old with
      | .inr _ => none
      | .inl (a2, old) =>
        match pruneResize ((a2.remove_vertices_that_cant_be_reached_from a2.referenceHead).2) old with
        | .inr _ => none
        | .inl (a3, old) =>
          match pruneResize (a3.remove_vertices_past a3.referenceTail) old with
          | .inr _ => none
          | .inl (a4, old) =>
            match pruneResize (a4.remove_vertices_that_cant_reach a4.referenceTail) old with
            | .inr _ => none
            | .inl (a5, _) => some a5

/-- Claim C8's reading of the failure cases: `prune` is degenerate exactly
when the reference-unique-path invariant is broken on entry, or the
topological sort inside reference-flank pruning finds a cycle, or flank
pruning is still applicable after having been run. -/
def pruneDegenerate (min_weight : ℕ) (a : Asm S) : Prop :=
  ¬ a.is_reference_unique_path ∨
  (∃ a5, pruneMid min_weight a = some a5 ∧
    ((a5.can_prune_reference_flanks ∧ a5.prune_reference_flanks = none) ∨
     (∃ a6, (if a5.can_prune_reference_flanks then a5.prune_reference_flanks else some a5) = some a6 ∧
        ¬ a6.isReferenceEmpty ∧ a6.can_prune_reference_flanks)))

end Asm

/-- The list of kmer windows of a sequence. -/
def kmerWindows (k : ℕ) (seq : List Char) : List (List Char) :=
  (List.range (seq.length + 1 - k)).map (fun i => (seq.drop i).take k)

namespace HG

variable {T H : Type}

/-- Claim C6's reading of the overflow protocol, following the spec: a
`generate` call fails with `HaplotypeOverflow` exactly when the haplotype
tree cannot be brought within the `overflow` limit — after reintroducing
holdouts, after extracting fresh holdouts (possible only while the stack
depth is below `max_holdout_depth`), or after the bounded extension when no
further holdouts may be taken — and the error carries the generator's
current active region together with the tree's haplotype count at the point
of failure. -/
def haplotypeOverflowSpec (ops : TreeOps T H) (wk : Walkers) (s : GenState T) :
    Option (GenomicRegion × ℕ) :=
  if s.alleles.isEmpty then none
  else if inHoldoutMode s && canReintroduceHoldouts s then
    let s1 := reintroduceHoldouts ops s
    if s.policies.haplotype_limits.overflow < ops.num_haplotypes s1.tree then
      some (s1.active_region, ops.num_haplotypes s1.tree)
    else none
  else
    let nxt := updateNextActiveRegion ops wk s
    let s := { s with next_active_region := some nxt }
    if nxt.is_after s.rightmost_allele.region then none
    else
      let s := progress ops s nxt
      let novelRegion :=
        if ¬ ops.is_empty s.tree then GenomicRegion.right_overhang_region nxt s.active_region
        else nxt
      let novelAlleles := overlapRange s.alleles novelRegion
      let (tree1, leftover) :=
        extendTreeUntil ops s.policies.haplotype_limits.holdout s.tree novelAlleles
      let s := { s with tree := tree1 }
      if ¬ leftover.isEmpty then
        let s := { s with next_active_region := none }
        if canExtractHoldouts s novelRegion then
          let s := extractHoldouts wk s novelRegion
          let s := { s with tree := ops.clearRegion novelRegion s.tree }
          let nxt2 := updateNextActiveRegion ops wk s
          let s := { s with active_region := nxt2, next_active_region := none }
          let newNovel := overlapRange s.alleles s.active_region
          let (tree2, leftover2) :=
            extendTreeUntil ops s.policies.haplotype_limits.overflow s.tree newNovel
          if ¬ leftover2.isEmpty then some (s.active_region, ops.num_haplotypes tree2)
          else none
        else
          let (tree3, leftover3) :=
            extendTreeUntil ops s.policies.haplotype_limits.overflow s.tree leftover
          if ¬ leftover3.isEmpty then
            some (ops.encompassing_region tree3, ops.num_haplotypes tree3)
          else none
      else none

end HG

/-- The read-manager invariants of claim C4: open-file budget respected,
open and closed reader sets disjoint, and their union exactly the input
path set. -/
def RMInvariant (st : RMState) : Prop :=
  st.open_readers.length ≤ st.max_open_files ∧
  (∀ p, p ∈ st.open_readers → p ∉ st.closed_readers) ∧
  (∀ p, (p ∈ st.open_readers ∨ p ∈ st.closed_readers) ↔ p ∈ st.allPaths)

/-- Strengthened induction invariant for the read manager: the claim's
invariants together with bookkeeping (no duplicates, containment in the
input set, and preserved metadata fields). -/
def RMWf (env : RMEnv) (paths : List String) (max_open : ℕ) (st : RMState) : Prop :=
  st.env = env ∧ st.allPaths = paths ∧ st.max_open_files = max_open ∧
  st.open_readers.Nodup ∧ st.closed_readers.Nodup ∧
  (∀ p, p ∈ st.open_readers → p ∈ paths) ∧
  (∀ p, p ∈ st.closed_readers → p ∈ paths) ∧
  (∀ p, p ∈ st.open_readers → p ∉ st.closed_readers) ∧
  (∀ p, p ∈ paths → p ∈ st.open_readers ∨ p ∈ st.closed_readers) ∧
  st.open_readers.length ≤ max_open

/-! ### Witness instantiations for the generator claims -/

/-- Trivial haplotype tree over `Unit` whose haplotype count is a constant;
used to instantiate the abstract tree contract in witnesses. -/
def unitOps (n : ℕ) (r : GenomicRegion) : TreeOps Unit Unit :=
  { num_haplotypes := fun _ => n,
    is_empty := fun _ => true,
    encompassing_region := fun _ => r,
    clearAll := fun t => t,
    clearRegion := fun _ t => t,
    extendWith := fun _ t => t,
    spliceAll := fun _ t => t,
    extract_haplotypes := fun _ _ => [] }

/-- Walkers that always propose a fixed region; lagging disabled. -/
def constWalkers (r : GenomicRegion) : Walkers :=
  { defaultW := fun _ _ _ => r,
    holdoutW := fun _ _ _ => r,
    laggedW := none }

/-- Default policies for witnesses. -/
def wPolicies (target holdout overflow depth : ℕ) : HGPolicies :=
  { lagging := .none_,
    haplotype_limits := { target := target, holdout := holdout, overflow := overflow },
    max_holdout_depth := depth }

/-- Witness generator state for claim C7: a single allele at `c:[5,6)`, the
active region just before it. -/
def c7state : GenState Unit :=
  { policies := wPolicies 4 8 16 0,
    min_flank_pad := 0,
    tree := (),
    alleles := [⟨⟨"c", 5, 6⟩, ['A']⟩],
    reads := [],
    rightmost_allele := ⟨⟨"c", 5, 6⟩, ['A']⟩,
    active_region := ⟨"c", 4, 4⟩,
    next_active_region := none,
    active_holdouts := [],
    holdout_region := none }

/-- Witness generator state for claim C6: one allele, a tree whose haplotype
count (5) exceeds every limit, and no holdout budget. -/
def c6state : GenState Unit :=
  { policies := wPolicies 1 2 3 0,
    min_flank_pad := 0,
    tree := (),
    alleles := [⟨⟨"c", 5, 6⟩, ['A']⟩],
    reads := [],
    rightmost_allele := ⟨⟨"c", 5, 6⟩, ['A']⟩,
    active_region := ⟨"c", 4, 4⟩,
    next_active_region := none,
    active_holdouts := [],
    holdout_region := none }

/-- Decidable equality for `Except` outcomes. -/
instance exceptDecEq {e a : Type} [DecidableEq e] [DecidableEq a] : DecidableEq (Except e a) :=
  fun x y =>
    match x, y with
    | .error u, .error v => if h : u = v then .isTrue (by rw [h]) else .isFalse (by simp [h])
    | .ok u, .ok v => if h : u = v then .isTrue (by rw [h]) else .isFalse (by simp [h])
    | .error _, .ok _ => .isFalse (by simp)
    | .ok _, .error _ => .isFalse (by simp)

/-! ## Theorems -/

set_option maxRecDepth 100000
set_option maxHeartbeats 4000000

/-- Sanity check: the C1 run is insensitive to the `absLog` stand-in — a
score model whose `|log(w/W)|` branch returns a poison value at every ratio
other than 1 produces the identical variant list, because every non-special
score in this run has `w = W` (where the source computes `|log 1| = 0`). -/
theorem c1_absLog_only_trivial_ratios :
    Asm.extract_variants intScores c1asm 1 = Asm.extract_variants intScoresPoison c1asm 1 := by
  decide

/-- Claim C1 (counterexample): on the two-bubble graph `c1asm`,
`extract_variants(1)` returns TWO variants — the inner loop of
`extract_k_highest_scoring_bubble_paths` emits every bubble on the chosen
shortest path even after the quota `k` has reached zero — so the claimed
bound `≤ N` fails. -/
theorem c1_counterexample :
    Asm.extract_variants intScores c1asm 1 =
      [⟨1, "CTAAAGAC".toList, "CTAAGGAC".toList⟩, ⟨10, "ATTACATA".toList, "ATTAGATA".toList⟩] ∧
    ¬ ((Asm.extract_variants intScores c1asm 1).length ≤ 1) := by
  constructor
  · decide
  · decide

/-- Claim C3 (counterexample): with k = 5 the reference `ACGTACGTACGTAC` is
periodic, its kmers form a cycle, the unique-reference-path invariant fails
on entry, so `prune(2)` returns `false` (clearing the graph) and
`extract_variants(10)` returns no variants — not the claimed success with
the single variant `(7, "G", "A")`. -/
theorem c3_counterexample :
    ¬ ((Asm.prune 2 c3asm).1 = true ∧
       Asm.extract_variants intScores (Asm.prune 2 c3asm).2 10 = [⟨7, ['G'], ['A']⟩]) := by
  decide

/-- Claim C3 (amended): on scenario S1's input the periodic reference breaks
the unique-reference-path invariant, so `prune(2)` returns `false` and
clears the graph, and `extract_variants(10)` on the cleared graph returns
the empty list. -/
theorem c3_amended :
    c3asm.is_reference_unique_path = false ∧
    (Asm.prune 2 c3asm).1 = false ∧
    (Asm.prune 2 c3asm).2.is_empty = true ∧
    Asm.extract_variants intScores (Asm.prune 2 c3asm).2 10 = [] := by
  refine ⟨by decide, by decide, by decide, by decide⟩


/-- Claim C9 (counterexample): on `c9asm` the first `prune(2)` succeeds and
trims the reference flanks, which strips the in-weight that had protected
the branch edge into the bubble; the second `prune(2)` also succeeds but
removes that edge (now low weight) and everything hanging off it, leaving a
different graph — so `prune` is not idempotent. -/
theorem c9_counterexample :
    (Asm.prune 2 c9asm).1 = true ∧
    (Asm.prune 2 (Asm.prune 2 c9asm).2).1 = true ∧
    (Asm.prune 2 (Asm.prune 2 c9asm).2).2 ≠ (Asm.prune 2 c9asm).2 := by
  have h : c9asm = c9lit := by decide
  rw [h]
  refine ⟨by decide, by decide, by decide⟩

/-- Claim C5 (counterexample): on scenario S5's input the manager returns
`chr1:[1000,1101)` — `max_head_region` expands the whole tracked head region
`[1000,1051)` on the right by the 50-position prefix length instead of
taking that prefix — not the claimed `chr1:[1000,1003)`, and not the largest
prefix with at most 3 read positions (which would be `[1000,1050)`). -/
theorem c5_counterexample :
    c5rm.find_covered_subregion ["S"] c5region 3 = ⟨"chr1", 1000, 1101⟩ ∧
    c5rm.find_covered_subregion ["S"] c5region 3 ≠ ⟨"chr1", 1000, 1003⟩ := by
  refine ⟨by decide, by decide⟩

/-- Claim C4 (counterexample): `open_readers_` is keyed by `FileSizeCompare`,
so two distinct paths of equal file size are equivalent keys; opening both
drops one of them from the open map while still erasing it from the closed
set.  After constructing a manager over two equal-sized files with
`max_open_files = 2`, file `"b"` is in neither set, so the union of the open
and closed reader sets is not the input path set. -/
theorem c4_counterexample :
    c4rm.open_readers = ["a"] ∧ c4rm.closed_readers = [] ∧
    ¬ ("b" ∈ c4rm.open_readers ∨ "b" ∈ c4rm.closed_readers) := by
  refine ⟨by decide, by decide, by decide⟩

/-- Claim C2 (counterexample): inserting a reference shorter than the kmer
size throws the plain `runtime_error` about the reference length, not
`BadReferenceSequence`. -/
theorem c2_counterexample :
    Asm.insert_reference intScores (Asm.mk0 5) "ACG".toList =
      .error (.runtimeError "Assembler:: reference length must >= kmer_size") ∧
    badRefOutcome (Asm.insert_reference intScores (Asm.mk0 5) "ACG".toList) = false := by
  refine ⟨by decide, by decide⟩

/-- Claim C10: `Builder::set_target_limit(n)` always sets the holdout and
overflow limits to `n + 1` in addition to the target (its guard compares the
holdout limit with itself, which always holds), so limits configured before
the call are overwritten and the order of the builder's setter calls is
observable. -/
theorem c10_set_target_limit (b : HGBuilder) (n m : ℕ) :
    (b.set_target_limit n).policies.haplotype_limits =
      { target := n, holdout := n + 1, overflow := n + 1 } ∧
    (m ≠ n + 1 →
      ((b.set_holdout_limit m).set_target_limit n).policies.haplotype_limits.holdout ≠
        ((b.set_target_limit n).set_holdout_limit m).policies.haplotype_limits.holdout) := by
  constructor
  · simp [HGBuilder.set_target_limit]
  · intro hm
    simp [HGBuilder.set_target_limit, HGBuilder.set_holdout_limit]
    omega

/-- Claim C10 (witness): at a concrete builder, target 5 and a pre-set
holdout limit 9, the two setter orders disagree. -/
theorem c10_set_target_limit_witness :
    (({ policies := wPolicies 4 8 16 0, min_flank_pad := 0 } : HGBuilder).set_target_limit 5).policies.haplotype_limits =
      { target := 5, holdout := 6, overflow := 6 } ∧
    ((({ policies := wPolicies 4 8 16 0, min_flank_pad := 0 } : HGBuilder).set_holdout_limit 9).set_target_limit 5).policies.haplotype_limits.holdout ≠
      ((({ policies := wPolicies 4 8 16 0, min_flank_pad := 0 } : HGBuilder).set_target_limit 5).set_holdout_limit 9).policies.haplotype_limits.holdout := by
  have h := c10_set_target_limit ({ policies := wPolicies 4 8 16 0, min_flank_pad := 0 } : HGBuilder) 5 9
  exact ⟨h.1, h.2 (by decide)⟩

/-- Helper: the two-argument `max_head_region` keeps the query's contig and
begin position. -/
theorem maxHeadRegion2_pres (t : CoverageTracker) (region : GenomicRegion) :
    (maxHeadRegion2 t region).contig = region.contig ∧
    (maxHeadRegion2 t region).begin_ = region.begin_ := by
  unfold maxHeadRegion2
  split
  · dsimp only
    split
    · exact ⟨rfl, rfl⟩
    · split
      · exact ⟨rfl, rfl⟩
      · exact ⟨rfl, rfl⟩
  · exact ⟨rfl, rfl⟩

/-- Helper: the three-argument `max_head_region` keeps the query's contig and
begin position. -/
theorem maxHeadRegion3_pres (t : CoverageTracker) (region : GenomicRegion) (m : ℕ) :
    (maxHeadRegion3 t region m).contig = region.contig ∧
    (maxHeadRegion3 t region m).begin_ = region.begin_ := by
  unfold maxHeadRegion3
  have h := maxHeadRegion2_pres t region
  split
  · exact ⟨rfl, rfl⟩
  · dsimp only
    split
    · exact h
    · exact ⟨h.1, h.2⟩

/-- Claim C5 (amended): `find_covered_subregion` always returns a region on
the query's contig starting at the query's begin position, and on the S5
input it returns `chr1:[1000,1101)` — the tracked head region expanded on
the right by the length of the within-budget prefix — rather than the
largest prefix holding at most `max_reads` read positions. -/
theorem c5_amended :
    (∀ (st : RMState) (samples : List String) (region : GenomicRegion) (max_reads : ℕ),
      (st.find_covered_subregion samples region max_reads).contig = region.contig ∧
      (st.find_covered_subregion samples region max_reads).begin_ = region.begin_) ∧
    c5rm.find_covered_subregion ["S"] c5region 3 = ⟨"chr1", 1000, 1101⟩ := by
  constructor
  · intro st samples region max_reads
    unfold RMState.find_covered_subregion
    split
    · exact ⟨rfl, rfl⟩
    · split <;> exact maxHeadRegion3_pres _ _ _
  · decide

/-- Claim C7: whenever `generate` computes a next active region (alleles
remain and no holdout re-entry applies) and that region lies past the
rightmost allele, it returns the terminal packet: an empty haplotype vector
paired with exactly that next active region. -/
theorem c7_terminal_packet {T H : Type} (ops : TreeOps T H) (wk : Walkers) (s : GenState T)
    (h1 : s.alleles.isEmpty = false)
    (h2 : (HG.inHoldoutMode s && HG.canReintroduceHoldouts s) = false)
    (h3 : (HG.updateNextActiveRegion ops wk s).is_after s.rightmost_allele.region = true) :
    HG.generate ops wk s =
      .ok (([], HG.updateNextActiveRegion ops wk s),
           { s with next_active_region := some (HG.updateNextActiveRegion ops wk s) }) := by
  unfold HG.generate
  simp only [h1, h2, Bool.false_eq_true, if_false, ite_false]
  rw [h3]
  simp

/-- Claim C7 (witness): a concrete one-allele generator whose walker proposes
a region past the rightmost allele returns the empty terminal packet with
that region. -/
theorem c7_terminal_packet_witness :
    HG.generate (unitOps 1 ⟨"c", 0, 0⟩) (constWalkers ⟨"c", 100, 110⟩) c7state =
      .ok (([], ⟨"c", 100, 110⟩), { c7state with next_active_region := some ⟨"c", 100, 110⟩ }) := by
  have e : HG.updateNextActiveRegion (unitOps 1 ⟨"c", 0, 0⟩) (constWalkers ⟨"c", 100, 110⟩) c7state
      = ⟨"c", 100, 110⟩ := by decide
  have h := c7_terminal_packet (unitOps 1 ⟨"c", 0, 0⟩) (constWalkers ⟨"c", 100, 110⟩) c7state
    (by decide) (by decide) (by rw [e]; decide)
  rw [e] at h
  exact h

/-- Claim C6: `generate` fails with `HaplotypeOverflow` exactly when the
haplotype tree cannot be brought within the overflow limit — on holdout
reintroduction, after extracting fresh holdouts (possible only while the
stack depth is below `max_holdout_depth`), or after the bounded extension
when no further holdouts may be taken — and the error carries the current
active region and the tree's haplotype count at the point of failure, as
computed by `haplotypeOverflowSpec`. -/
theorem c6_haplotype_overflow {T H : Type} (ops : TreeOps T H) (wk : Walkers)
    (s : GenState T) (e : GenomicRegion × ℕ) :
    (HG.generate ops wk s = .error e) ↔ (HG.haplotypeOverflowSpec ops wk s = some e) := by
  unfold HG.generate HG.haplotypeOverflowSpec HG.finishPacket
  repeat' (first | split | dsimp only)
  all_goals simp

/-- Claim C8: `prune(w)` returns `false` exactly in the degenerate cases —
the reference-unique-path invariant is broken on entry, the topological sort
inside reference-flank pruning finds the graph is not a DAG, or flank
pruning is still applicable after having been run — and whenever it returns
`false` the graph has been cleared; when the reference ended up empty after
flank pruning it also clears the graph but returns `true`. -/
theorem c8_prune_false_cases {S : Type} (w : ℕ) (a : Asm S) :
    ((Asm.prune w a).1 = false ↔ Asm.pruneDegenerate w a) ∧
    ((Asm.prune w a).1 = false →
      (Asm.prune w a).2.verts = [] ∧ (Asm.prune w a).2.edges = [] ∧
      (Asm.prune w a).2.reference_kmers = []) ∧
    (∀ a5, Asm.pruneMid w a = some a5 →
      ∀ a6, (if a5.can_prune_reference_flanks then a5.prune_reference_flanks else some a5)
          = some a6 →
        a6.isReferenceEmpty = true → Asm.prune w a = (true, a6.clear)) := by
  unfold Asm.prune Asm.pruneDegenerate Asm.pruneMid
  repeat' (first | split | dsimp only)
  all_goals (try split_ifs at *)
  all_goals simp_all [Asm.clear]

/-- Claim C8 (witness): the cyclic-reference graph of scenario S3 makes
`prune 2` fail, and the failing call clears the vertex list. -/
theorem c8_prune_false_cases_witness :
    (Asm.prune 2 c3asm).1 = false ∧ (Asm.prune 2 c3asm).2.verts = [] :=
  ⟨by decide, (((c8_prune_false_cases 2 c3asm).2.1) (by decide)).1⟩

theorem mem_vids_filter {p : AsmVert → Bool} {l : List AsmVert} :
    (l.filter p).map AsmVert.vid ⊆ l.map AsmVert.vid := by
  intro x hx
  simp only [List.mem_map, List.mem_filter] at hx ⊢
  obtain ⟨n, ⟨hn, _⟩, rfl⟩ := hx
  exact ⟨n, hn, rfl⟩

theorem verts_removeEdgeIfSeq_go {S : Type} (p : Asm S → AsmEdge S → Bool) (l : List ℕ) :
    ∀ acc : Asm S, (Asm.removeEdgeIfSeq.go p acc l).verts = acc.verts := by
  induction l with
  | nil => intro acc; rfl
  | cons eid rest ih =>
    intro acc
    unfold Asm.removeEdgeIfSeq.go
    cases h : acc.edges.find? (fun e => e.eid = eid) with
    | none => exact ih acc
    | some e =>
      dsimp only
      split
      · rw [ih]; rfl
      · exact ih acc

theorem verts_remove_low_weight {S : Type} (a : Asm S) (w : ℕ) :
    (a.remove_low_weight_edges w).verts = a.verts :=
  verts_removeEdgeIfSeq_go _ _ a

theorem vids_clearAndRemoveAll {S : Type} (vs : List ℕ) :
    ∀ a : Asm S,
      (a.clearAndRemoveAll vs).verts.map AsmVert.vid ⊆ a.verts.map AsmVert.vid := by
  induction vs with
  | nil => intro a x hx; exact hx
  | cons v rest ih =>
    intro a x hx
    have h1 : x ∈ ((a.clearAndRemoveVertex v).clearAndRemoveAll rest).verts.map AsmVert.vid := hx
    exact mem_vids_filter (ih _ h1)

theorem vids_regenerate {S : Type} (a : Asm S) :
    (a.regenerateVertexIndices).verts.map AsmVert.vid = a.verts.map AsmVert.vid := by
  show (List.map (fun p : AsmVert × ℕ => { p.1 with index := p.2 })
      (a.verts.zip (List.range a.verts.length))).map AsmVert.vid = a.verts.map AsmVert.vid
  rw [List.map_map]
  have h : (AsmVert.vid ∘ fun p : AsmVert × ℕ => { p.1 with index := p.2 })
      = AsmVert.vid ∘ Prod.fst := rfl
  rw [h, ← List.map_map, List.map_fst_zip]
  simp

theorem vids_pruneResize_inl {S : Type} {a a' : Asm S} {old old' : ℕ}
    (h : a.pruneResize old = .inl (a', old')) :
    a'.verts.map AsmVert.vid = a.verts.map AsmVert.vid := by
  unfold Asm.pruneResize at h
  dsimp only at h
  split at h
  · simp only [Sum.inl.injEq, Prod.mk.injEq] at h
    rw [← h.1]
  · split at h
    · cases h
    · simp only [Sum.inl.injEq, Prod.mk.injEq] at h
      rw [← h.1]
      exact vids_regenerate a

theorem vids_pruneResize_inr {S : Type} {a a' : Asm S} {old : ℕ}
    (h : a.pruneResize old = .inr a') :
    a'.verts.map AsmVert.vid = a.verts.map AsmVert.vid := by
  unfold Asm.pruneResize at h
  dsimp only at h
  split at h
  · cases h
  · split at h
    · simp only [Sum.inr.injEq] at h
      rw [← h]
      exact vids_regenerate a
    · cases h

theorem vids_dropHeadFlank {S : Type} (l : List ℕ) :
    ∀ a : Asm S, (a.dropHeadFlank l).verts.map AsmVert.vid ⊆ a.verts.map AsmVert.vid := by
  induction l with
  | nil => intro a x hx; exact hx
  | cons u rest ih =>
    intro a
    rw [Asm.dropHeadFlank]
    intro x hx
    exact mem_vids_filter (ih _ hx)

theorem vids_dropTailFlank {S : Type} (l : List ℕ) :
    ∀ a : Asm S, (a.dropTailFlank l).verts.map AsmVert.vid ⊆ a.verts.map AsmVert.vid := by
  induction l with
  | nil => intro a x hx; exact hx
  | cons u rest ih =>
    intro a
    rw [Asm.dropTailFlank]
    intro x hx
    exact mem_vids_filter (ih _ hx)

theorem vids_prune_reference_flanks {S : Type} {a a' : Asm S}
    (h : a.prune_reference_flanks = some a') :
    a'.verts.map AsmVert.vid ⊆ a.verts.map AsmVert.vid := by
  unfold Asm.prune_reference_flanks at h
  split at h
  · injection h with h1
    subst h1
    exact fun x hx => hx
  · split at h
    · cases h
    · dsimp only at h
      injection h with h1
      subst h1
      exact List.Subset.trans (vids_dropTailFlank _ _) (vids_dropHeadFlank _ _)

theorem vids_remove_vertices_past {S : Type} (a : Asm S) (v : ℕ) :
    (a.remove_vertices_past v).verts.map AsmVert.vid ⊆ a.verts.map AsmVert.vid := by
  unfold Asm.remove_vertices_past Asm.remove_vertices_that_cant_be_reached_from
  dsimp only
  split
  · exact vids_clearAndRemoveAll _ _
  · split
    · exact List.Subset.trans (vids_clearAndRemoveAll _ _) (vids_clearAndRemoveAll _ _)
    · exact vids_clearAndRemoveAll _ _

theorem vids_remove_cant_reach {S : Type} (a : Asm S) (v : ℕ) :
    (a.remove_vertices_that_cant_reach v).verts.map AsmVert.vid ⊆ a.verts.map AsmVert.vid := by
  unfold Asm.remove_vertices_that_cant_reach
  split
  · exact fun x hx => hx
  · exact vids_clearAndRemoveAll _ _

theorem vids_low_disc {S : Type} (a : Asm S) (w : ℕ) :
    ((a.remove_low_weight_edges w).remove_disconnected_vertices).verts.map AsmVert.vid
      ⊆ a.verts.map AsmVert.vid := by
  intro x hx
  have h1 := mem_vids_filter hx
  rw [verts_remove_low_weight] at h1
  exact h1

theorem vids_remove_cant_be_reached {S : Type} (a : Asm S) (v : ℕ) :
    (a.remove_vertices_that_cant_be_reached_from v).2.verts.map AsmVert.vid
      ⊆ a.verts.map AsmVert.vid := by
  unfold Asm.remove_vertices_that_cant_be_reached_from
  exact vids_clearAndRemoveAll _ _

/-- Claim C9 (amended): `prune(w)` never adds vertices — the vertex identity
list of the resulting graph is always a sublist (as a set) of the input
graph's, whatever the outcome flag.  Idempotence itself fails; see the
counterexample. -/
theorem c9_amended_prune_shrinks {S : Type} (w : ℕ) (a : Asm S) :
    (Asm.prune w a).2.verts.map AsmVert.vid ⊆ a.verts.map AsmVert.vid := by
  unfold Asm.prune
  split
  · intro x hx; simp [Asm.clear] at hx
  · split
    · exact fun x hx => hx
    · dsimp only
      split
      · rename_i a1 heq1
        show a1.verts.map AsmVert.vid ⊆ a.verts.map AsmVert.vid
        rw [vids_pruneResize_inr heq1]
        exact fun x hx => hx
      · rename_i a1 old1 heq1
        have sub1 : a1.verts.map AsmVert.vid ⊆ a.verts.map AsmVert.vid := by
          rw [vids_pruneResize_inl heq1]; exact fun x hx => hx
        split
        · rename_i a2 heq2
          show a2.verts.map AsmVert.vid ⊆ a.verts.map AsmVert.vid
          rw [vids_pruneResize_inr heq2]
          exact List.Subset.trans (vids_low_disc a1 w) sub1
        · rename_i a2 old2 heq2
          have sub2 : a2.verts.map AsmVert.vid ⊆ a.verts.map AsmVert.vid := by
            rw [vids_pruneResize_inl heq2]
            exact List.Subset.trans (vids_low_disc a1 w) sub1
          split
          · rename_i a3 heq3
            show a3.verts.map AsmVert.vid ⊆ a.verts.map AsmVert.vid
            rw [vids_pruneResize_inr heq3]
            exact List.Subset.trans (vids_remove_cant_be_reached _ _) sub2
          · rename_i a3 old3 heq3
            have sub3 : a3.verts.map AsmVert.vid ⊆ a.verts.map AsmVert.vid := by
              rw [vids_pruneResize_inl heq3]
              exact List.Subset.trans (vids_remove_cant_be_reached _ _) sub2
            split
            · rename_i a4 heq4
              show a4.verts.map AsmVert.vid ⊆ a.verts.map AsmVert.vid
              rw [vids_pruneResize_inr heq4]
              exact List.Subset.trans (vids_remove_vertices_past _ _) sub3
            · rename_i a4 old4 heq4
              have sub4 : a4.verts.map AsmVert.vid ⊆ a.verts.map AsmVert.vid := by
                rw [vids_pruneResize_inl heq4]
                exact List.Subset.trans (vids_remove_vertices_past _ _) sub3
              split
              · rename_i a5 heq5
                show a5.verts.map AsmVert.vid ⊆ a.verts.map AsmVert.vid
                rw [vids_pruneResize_inr heq5]
                exact List.Subset.trans (vids_remove_cant_reach _ _) sub4
              · rename_i a5 old5 heq5
                have sub5 : a5.verts.map AsmVert.vid ⊆ a.verts.map AsmVert.vid := by
                  rw [vids_pruneResize_inl heq5]
                  exact List.Subset.trans (vids_remove_cant_reach _ _) sub4
                split
                · intro x hx; simp [Asm.clear] at hx
                · rename_i a6 heq6
                  have sub6 : a6.verts.map AsmVert.vid ⊆ a.verts.map AsmVert.vid := by
                    rcases h : a5.can_prune_reference_flanks with _ | _
                    · rw [h] at heq6
                      simp at heq6
                      rw [← heq6]
                      exact sub5
                    · rw [h] at heq6
                      simp at heq6
                      exact List.Subset.trans (vids_prune_reference_flanks heq6) sub5
                  split
                  · intro x hx; simp [Asm.clear] at hx
                  · split
                    · intro x hx; simp [Asm.clear] at hx
                    · split
                      · show (a6.regenerateVertexIndices).verts.map AsmVert.vid
                            ⊆ a.verts.map AsmVert.vid
                        rw [vids_regenerate]
                        exact sub6
                      · exact sub6

theorem kmerWindows_tail (k : ℕ) (hk : 1 ≤ k) (s : List Char) :
    (kmerWindows k s).tail = kmerWindows k s.tail := by
  unfold kmerWindows
  rcases s with _ | ⟨c, cs⟩
  · simp only [List.length_nil, List.tail_nil]
    have h1 : (0 : ℕ) + 1 - k = 0 := by omega
    rw [h1]
    rfl
  · rcases le_or_lt k (cs.length + 1) with hle | hgt
    · have hn : (c :: cs).length + 1 - k = (cs.length + 1 - k) + 1 := by
        simp only [List.length_cons]; omega
      rw [hn, List.range_succ_eq_map]
      simp only [List.map_cons, List.tail_cons, List.map_map]
      rfl
    · have hn0 : (c :: cs).length + 1 - k = 0 := by simp only [List.length_cons]; omega
      have hn1 : (c :: cs).tail.length + 1 - k = 0 := by simp only [List.tail_cons]; omega
      rw [hn0, hn1]
      rfl

theorem kmerWindows_cons (k : ℕ) (s : List Char) (h : k ≤ s.length) :
    kmerWindows k s = s.take k :: (kmerWindows k s).tail := by
  unfold kmerWindows
  have hn : s.length + 1 - k = (s.length - k) + 1 := by omega
  rw [hn, List.range_succ_eq_map]
  simp only [List.map_cons, List.drop_zero, List.tail_cons]

theorem containsKmer_false_of_not_canonical {S : Type} {a : Asm S} {km : List Char}
    (hcanon : a.verts.all (fun n => Asm.isCanonicalDna n.kmer) = true)
    (hkm : Asm.isCanonicalDna km = false) :
    a.containsKmer km = false := by
  unfold Asm.containsKmer
  cases hfind : a.verts.find? (fun n => decide (n.kmer = km)) with
  | none => rfl
  | some n =>
    have h1 := List.find?_some hfind
    have h2 := List.mem_of_find?_eq_some hfind
    simp only [decide_eq_true_eq] at h1
    have h3 : Asm.isCanonicalDna n.kmer = true := by
      have := List.all_eq_true.mp hcanon n h2
      simpa using this
    rw [h1] at h3
    rw [h3] at hkm
    cases hkm

theorem allCanon_addVertex {S : Type} {a a' : Asm S} {km : List Char} {b : Bool} {v : ℕ}
    (h : a.addVertex km b = some (a', v))
    (hcanon : a.verts.all (fun n => Asm.isCanonicalDna n.kmer) = true) :
    a'.verts.all (fun n => Asm.isCanonicalDna n.kmer) = true := by
  unfold Asm.addVertex at h
  split at h
  · rename_i hc
    simp only [Option.some.injEq, Prod.mk.injEq] at h
    obtain ⟨h1, _⟩ := h
    subst h1
    simp only [List.all_append, Bool.and_eq_true]
    refine ⟨hcanon, ?_⟩
    simp [hc]
  · cases h

theorem any_not_eq_not_all (l : List (List Char)) (p : List Char → Bool) :
    l.any (fun w => ! p w) = ! l.all p := by
  induction l with
  | nil => rfl
  | cons x xs ih => simp [List.any_cons, List.all_cons, ih, Bool.not_and]

theorem addVertex_some_canon {S : Type} {a : Asm S} {km : List Char} {b : Bool}
    {r : Asm S × ℕ} (h : a.addVertex km b = some r) :
    Asm.isCanonicalDna km = true := by
  unfold Asm.addVertex at h
  split at h
  · rename_i hc; exact hc
  · cases h

theorem addVertex_none_not_canon {S : Type} {a : Asm S} {km : List Char} {b : Bool}
    (h : a.addVertex km b = none) : Asm.isCanonicalDna km = false := by
  unfold Asm.addVertex at h
  split at h
  · cases h
  · rename_i hc; simpa using hc

theorem insertRefEmptyGo_badRef (k : ℕ) (hk : 1 ≤ k) :
    ∀ (cs : List Char) (a : Asm ℤ) (prev : List Char),
      prev.length = k →
      a.verts.all (fun n => Asm.isCanonicalDna n.kmer) = true →
      badRefOutcome (Asm.insertRefEmptyGo intScores a prev cs) =
        (kmerWindows k (prev ++ cs)).tail.any (fun w => ! Asm.isCanonicalDna w) := by
  intro cs
  induction cs with
  | nil =>
    intro a prev hlen hcanon
    simp only [Asm.insertRefEmptyGo, List.append_nil]
    unfold kmerWindows
    have h1 : prev.length + 1 - k = 1 := by omega
    rw [h1]
    rfl
  | cons c cs ih =>
    intro a prev hlen hcanon
    have hklen : (prev.tail ++ [c]).length = k := by
      simp only [List.length_append, List.length_tail, List.length_cons, List.length_nil]
      omega
    have hwords : k ≤ ((prev.tail ++ [c]) ++ cs).length := by
      rw [List.length_append, hklen]
      omega
    have htail : (prev ++ c :: cs).tail = (prev.tail ++ [c]) ++ cs := by
      rcases prev with _ | ⟨p, ps⟩
      · simp at hlen; omega
      · simp
    have htake : ((prev.tail ++ [c]) ++ cs).take k = prev.tail ++ [c] := by
      rw [← hklen]
      exact List.take_left _ _
    rw [kmerWindows_tail k hk (prev ++ c :: cs), htail]
    cases hc : Asm.isCanonicalDna (prev.tail ++ [c]) with
    | false =>
      have hnc := containsKmer_false_of_not_canonical
        (a := ({ a with reference_kmers := a.reference_kmers ++ [prev.tail ++ [c]] } : Asm ℤ))
        hcanon hc
      rw [kmerWindows_cons k _ hwords, htake]
      simp only [Asm.insertRefEmptyGo, List.drop_one]
      rw [hnc]
      simp only [Bool.false_eq_true, if_false]
      simp [Asm.addVertex, hc, badRefOutcome, AsmError.isBadRef]
    | true =>
      simp only [Asm.insertRefEmptyGo, List.drop_one]
      split
      · rw [ih _ _ hklen (by exact hcanon)]
        rw [kmerWindows_cons k _ hwords, htake]
        simp [hc]
      · split
        · rename_i a' v heq
          have hcanon' := allCanon_addVertex heq hcanon
          rw [ih _ _ hklen (by exact hcanon')]
          rw [kmerWindows_cons k _ hwords, htake]
          simp [hc]
        · rename_i heq
          have h2 := addVertex_none_not_canon heq
          rw [hc] at h2
          cases h2

/-- Claim C2 (amended): on a fresh assembler with kmer size `k ≥ 1`,
`insert_reference(seq)` fails with a plain `runtime_error` — not
`BadReferenceSequence` — when `seq` is shorter than `k`; for `seq` of length
at least `k`, it fails with `BadReferenceSequence` exactly when some
length-`k` window of `seq` is non-canonical. -/
theorem c2_amended (k : ℕ) (hk : 1 ≤ k) (seq : List Char) :
    (seq.length < k →
      Asm.insert_reference intScores (Asm.mk0 k) seq =
        .error (.runtimeError "Assembler:: reference length must >= kmer_size")) ∧
    (k ≤ seq.length →
      badRefOutcome (Asm.insert_reference intScores (Asm.mk0 k) seq) =
        ! (kmerWindows k seq).all Asm.isCanonicalDna) := by
  constructor
  · intro hshort
    show Asm.insert_reference_into_empty_graph intScores (Asm.mk0 k) seq = _
    unfold Asm.insert_reference_into_empty_graph
    dsimp only [Asm.mk0]
    rw [if_pos hshort]
  · intro hlong
    have hw0len : (seq.take k).length = k := by
      rw [List.length_take]
      omega
    show badRefOutcome (Asm.insert_reference_into_empty_graph intScores (Asm.mk0 k) seq) = _
    unfold Asm.insert_reference_into_empty_graph
    dsimp only [Asm.mk0]
    rw [if_neg (by omega : ¬ seq.length < k)]
    split
    · rename_i hck
      simp [Asm.containsKmer] at hck
    · split
      · rename_i a' v heq
        have hcw0 : Asm.isCanonicalDna (seq.take k) = true := addVertex_some_canon heq
        have hcanon' : a'.verts.all (fun n => Asm.isCanonicalDna n.kmer) = true :=
          allCanon_addVertex heq (by rfl)
        rw [insertRefEmptyGo_badRef k hk (seq.drop k) a' (seq.take k) hw0len hcanon']
        rw [List.take_append_drop]
        rw [kmerWindows_cons k seq hlong]
        simp only [List.tail_cons, List.all_cons, hcw0, Bool.true_and]
        rw [any_not_eq_not_all]
      · rename_i heq
        have hcw0 : Asm.isCanonicalDna (seq.take k) = false := addVertex_none_not_canon heq
        rw [kmerWindows_cons k seq hlong]
        simp [badRefOutcome, AsmError.isBadRef, hcw0]

/-- Claim C2 (amended, witness): with `k = 5`, the sequence `ACGTNACGT`
(length 9, containing an `N`) produces `BadReferenceSequence`, and the
sequence `ACG` (shorter than `k`) produces the plain length `runtime_error`. -/
theorem c2_amended_witness :
    badRefOutcome (Asm.insert_reference intScores (Asm.mk0 5) "ACGTNACGT".toList) = true ∧
    Asm.insert_reference intScores (Asm.mk0 5) "ACG".toList =
      .error (.runtimeError "Assembler:: reference length must >= kmer_size") :=
  ⟨by rw [(c2_amended 5 (by decide) "ACGTNACGT".toList).2 (by decide)]; decide,
   (c2_amended 5 (by decide) "ACG".toList).1 (by decide)⟩

theorem mem_sortInsert {α : Type} (le : α → α → Bool) (x : α) :
    ∀ (l : List α) (y : α), y ∈ sortInsert le x l ↔ y = x ∨ y ∈ l := by
  intro l
  induction l with
  | nil => intro y; simp [sortInsert]
  | cons z zs ih =>
    intro y
    simp only [sortInsert]
    split
    · simp [List.mem_cons]
    · simp only [List.mem_cons, ih]
      tauto

theorem length_sortInsert {α : Type} (le : α → α → Bool) (x : α) :
    ∀ l : List α, (sortInsert le x l).length = l.length + 1 := by
  intro l
  induction l with
  | nil => rfl
  | cons z zs ih =>
    simp only [sortInsert]
    split
    · simp
    · simp [ih]

theorem nodup_sortInsert {α : Type} (le : α → α → Bool) (x : α) :
    ∀ l : List α, x ∉ l → l.Nodup → (sortInsert le x l).Nodup := by
  intro l
  induction l with
  | nil => intro _ _; simp [sortInsert]
  | cons z zs ih =>
    intro hx hnd
    simp only [sortInsert]
    rw [List.nodup_cons] at hnd
    split
    · refine List.nodup_cons.mpr ⟨hx, List.nodup_cons.mpr hnd⟩
    · refine List.nodup_cons.mpr ⟨?_, ih (fun h => hx (List.mem_cons_of_mem z h)) hnd.2⟩
      rw [mem_sortInsert]
      rintro (h | h)
      · exact hx (h ▸ List.mem_cons_self z zs)
      · exact hnd.1 h

theorem mem_sortBy {α : Type} (le : α → α → Bool) :
    ∀ (l : List α) (y : α), y ∈ sortBy le l ↔ y ∈ l := by
  intro l
  induction l with
  | nil => intro y; simp [sortBy]
  | cons z zs ih =>
    intro y
    simp only [sortBy, mem_sortInsert, List.mem_cons, ih]

theorem mem_of_head_some {α : Type} {l : List α} {a : α} (h : l.head? = some a) : a ∈ l := by
  cases l with
  | nil => cases h
  | cons x xs =>
    simp only [List.head?_cons, Option.some.injEq] at h
    subst h
    exact List.mem_cons_self x xs

theorem mapFindBySize_inj {env : RMEnv} {paths m : List String} {p : String}
    (hm : ∀ x ∈ m, x ∈ paths) (hp : p ∈ paths)
    (hinj : ∀ x ∈ paths, ∀ y ∈ paths, env.size x = env.size y → x = y) :
    RMState.mapFindBySize env m p = if p ∈ m then some p else none := by
  unfold RMState.mapFindBySize
  split
  · rename_i hpm
    cases hfind : m.find? (fun q => decide (env.size q = env.size p)) with
    | none =>
      exfalso
      have h := List.find?_eq_none.mp hfind p hpm
      simp at h
    | some q =>
      have h1 := List.find?_some hfind
      have h2 := List.mem_of_find?_eq_some hfind
      simp only [decide_eq_true_eq] at h1
      rw [hinj q (hm q h2) p hp h1]
  · rename_i hpm
    apply List.find?_eq_none.mpr
    intro x hx
    simp only [decide_eq_true_eq]
    intro hsz
    exact hpm (hinj x (hm x hx) p hp hsz ▸ hx)

theorem length_filter_ne {α : Type} [DecidableEq α] {q : α} :
    ∀ l : List α, l.Nodup → q ∈ l →
      (l.filter (fun x => x ≠ q)).length + 1 = l.length := by
  intro l
  induction l with
  | nil => intro _ h; cases h
  | cons x xs ih =>
    intro hnd hm
    rw [List.nodup_cons] at hnd
    by_cases hxq : x = q
    · subst hxq
      have hself : xs.filter (fun y => y ≠ x) = xs := by
        apply List.filter_eq_self.mpr
        intro a ha
        simp only [ne_eq, decide_not, Bool.not_eq_eq_eq_not, Bool.not_true,
          decide_eq_false_iff_not]
        exact fun h => hnd.1 (h ▸ ha)
      simp [List.filter_cons, hself]
      exact fun a ha h => hnd.1 (h ▸ ha)
    · rcases List.mem_cons.mp hm with h | h
      · exact absurd h.symm hxq
      · have hih := ih hnd.2 h
        simp only [List.filter_cons, List.length_cons]
        rw [if_pos (by simpa using hxq)]
        simp only [List.length_cons]
        omega

theorem RMWf_close_reader {env : RMEnv} {paths : List String} {max_open : ℕ}
    (hinj : ∀ x ∈ paths, ∀ y ∈ paths, env.size x = env.size y → x = y)
    {st : RMState} (hw : RMWf env paths max_open st) {q : String}
    (hq : q ∈ st.open_readers) :
    RMWf env paths max_open (st.close_reader q) ∧
    (st.close_reader q).open_readers.length + 1 = st.open_readers.length := by
  obtain ⟨henv, hpaths, hmaxf, hndO, hndC, hOp, hCp, hdisj, hcov, hlen⟩ := hw
  have hqp : q ∈ paths := hOp q hq
  have herase : RMState.mapErase st.env st.open_readers q
      = st.open_readers.filter (fun x => x ≠ q) := by
    unfold RMState.mapErase
    rw [henv, mapFindBySize_inj hOp hqp hinj, if_pos hq]
  unfold RMState.close_reader
  rw [herase]
  refine ⟨⟨henv, hpaths, hmaxf, List.Nodup.filter _ hndO, ?_, ?_, ?_, ?_, ?_, ?_⟩, ?_⟩
  · split
    · exact hndC
    · rename_i hcont
      have hqc : q ∉ st.closed_readers := by simpa using hcont
      rw [List.nodup_append]
      exact ⟨hndC, List.nodup_singleton q,
        fun x hx hx1 => hqc ((List.mem_singleton.mp hx1) ▸ hx)⟩
  · exact fun x hx => hOp x (List.mem_of_mem_filter hx)
  · intro x hx
    split at hx
    · exact hCp x hx
    · rcases List.mem_append.mp hx with h | h
      · exact hCp x h
      · exact (List.mem_singleton.mp h) ▸ hqp
  · intro x hx
    have hx1 := List.mem_filter.mp hx
    have hxq : x ≠ q := by simpa using hx1.2
    split
    · exact hdisj x hx1.1
    · intro hmem
      rcases List.mem_append.mp hmem with h | h
      · exact hdisj x hx1.1 h
      · exact hxq (List.mem_singleton.mp h)
  · intro r hr
    rcases hcov r hr with h | h
    · by_cases hrq : r = q
      · subst hrq
        right
        split
        · rename_i hcont
          simpa using hcont
        · exact List.mem_append.mpr (Or.inr (List.mem_singleton_self r))
      · left
        exact List.mem_filter.mpr ⟨h, by simpa using hrq⟩
    · right
      split
      · exact h
      · exact List.mem_append.mpr (Or.inl h)
  · exact le_trans (List.length_filter_le _ _) hlen
  · exact length_filter_ne st.open_readers hndO hq

theorem RMWf_open_reader {env : RMEnv} {paths : List String} {max_open : ℕ}
    (hinj : ∀ x ∈ paths, ∀ y ∈ paths, env.size x = env.size y → x = y)
    {st : RMState} (hw : RMWf env paths max_open st) {p : String}
    (hp : p ∈ paths) (hmax : 1 ≤ max_open) :
    RMWf env paths max_open (st.open_reader p) := by
  have hmaxf := hw.2.2.1
  have hlen := hw.2.2.2.2.2.2.2.2.2
  unfold RMState.open_reader
  dsimp only
  set st1 := (if st.num_open_readers = st.max_open_files then
      match st.choose_reader_to_close with
      | some q => st.close_reader q
      | none => st
    else st) with hst1
  have h1 : RMWf env paths max_open st1 ∧ st1.open_readers.length < max_open := by
    rw [hst1]
    split
    · rename_i hfull
      unfold RMState.num_open_readers at hfull
      split
      · rename_i q hh
        have hq := mem_of_head_some
          (by unfold RMState.choose_reader_to_close at hh; exact hh)
        have hc := RMWf_close_reader hinj hw hq
        refine ⟨hc.1, ?_⟩
        have hl := hc.2
        omega
      · rename_i hh
        exfalso
        unfold RMState.choose_reader_to_close at hh
        rw [List.head?_eq_none_iff] at hh
        have h0 : st.open_readers.length = 0 := by rw [hh]; rfl
        omega
    · rename_i hnfull
      unfold RMState.num_open_readers at hnfull
      exact ⟨hw, by omega⟩
  obtain ⟨⟨henv1, hpaths1, hmaxf1, hndO1, hndC1, hOp1, hCp1, hdisj1, hcov1, hlen1⟩, hroom⟩ := h1
  have hfind : RMState.mapFindBySize st1.env st1.open_readers p
      = if p ∈ st1.open_readers then some p else none := by
    rw [henv1]
    exact mapFindBySize_inj hOp1 hp hinj
  unfold RMState.mapEmplace
  rw [hfind]
  by_cases hpm : p ∈ st1.open_readers
  · rw [if_pos hpm]
    simp only [Option.isSome_some, if_true]
    refine ⟨henv1, hpaths1, hmaxf1, hndO1, List.Nodup.filter _ hndC1, hOp1,
      fun x hx => hCp1 x (List.mem_of_mem_filter hx),
      fun x hx hmem => hdisj1 x hx (List.mem_of_mem_filter hmem), ?_, hlen1⟩
    intro r hr
    rcases hcov1 r hr with h | h
    · exact Or.inl h
    · by_cases hrp : r = p
      · exact Or.inl (hrp ▸ hpm)
      · refine Or.inr (List.mem_filter.mpr ⟨h, ?_⟩)
        simpa using hrp
  · rw [if_neg hpm]
    simp only [Option.isSome_none, Bool.false_eq_true, if_false]
    refine ⟨henv1, hpaths1, hmaxf1, nodup_sortInsert _ _ _ hpm hndO1,
      List.Nodup.filter _ hndC1, ?_,
      fun x hx => hCp1 x (List.mem_of_mem_filter hx), ?_, ?_, ?_⟩
    · intro x hx
      rcases (mem_sortInsert _ _ _ _).mp hx with h | h
      · exact h ▸ hp
      · exact hOp1 x h
    · intro x hx hmem
      rcases (mem_sortInsert _ _ _ _).mp hx with h | h
      · subst h
        have hf := List.mem_filter.mp hmem
        simp at hf
      · exact hdisj1 x h (List.mem_of_mem_filter hmem)
    · intro r hr
      rcases hcov1 r hr with h | h
      · exact Or.inl ((mem_sortInsert _ _ _ _).mpr (Or.inr h))
      · by_cases hrp : r = p
        · exact Or.inl ((mem_sortInsert _ _ _ _).mpr (Or.inl hrp))
        · refine Or.inr (List.mem_filter.mpr ⟨h, ?_⟩)
          simpa using hrp
    · rw [length_sortInsert]
      omega

theorem RMWf_close_readers {env : RMEnv} {paths : List String} {max_open : ℕ}
    (hinj : ∀ x ∈ paths, ∀ y ∈ paths, env.size x = env.size y → x = y) :
    ∀ (n : ℕ) (st : RMState), RMWf env paths max_open st →
      RMWf env paths max_open (st.close_readers n) := by
  intro n
  induction n with
  | zero => intro st hw; exact hw
  | succ m ih =>
    intro st hw
    unfold RMState.close_readers
    split
    · rename_i q hh
      exact ih _ (RMWf_close_reader hinj hw (mem_of_head_some
        (by unfold RMState.choose_reader_to_close at hh; exact hh))).1
    · exact hw

theorem RMWf_foldl_open {env : RMEnv} {paths : List String} {max_open : ℕ}
    (hinj : ∀ x ∈ paths, ∀ y ∈ paths, env.size x = env.size y → x = y)
    (hmax : 1 ≤ max_open) :
    ∀ (Q : List String) (st : RMState), RMWf env paths max_open st →
      (∀ x ∈ Q, x ∈ paths) →
      RMWf env paths max_open (Q.foldl (fun acc p => acc.open_reader p) st) := by
  intro Q
  induction Q with
  | nil => intro st hw _; exact hw
  | cons p ps ih =>
    intro st hw hQ
    exact ih _ (RMWf_open_reader hinj hw (hQ p (List.mem_cons_self p ps)) hmax)
      (fun x hx => hQ x (List.mem_cons_of_mem p hx))

theorem RMWf_open_readers_op {env : RMEnv} {paths : List String} {max_open : ℕ}
    (hinj : ∀ x ∈ paths, ∀ y ∈ paths, env.size x = env.size y → x = y)
    (hmax : 1 ≤ max_open) {st : RMState} (hw : RMWf env paths max_open st)
    {Q : List String} (hQ : ∀ x ∈ Q, x ∈ paths) :
    RMWf env paths max_open (st.open_readers_op Q).2 := by
  unfold RMState.open_readers_op
  split
  · exact hw
  · dsimp only
    split
    · exact RMWf_foldl_open hinj hmax _ _ hw hQ
    · refine RMWf_foldl_open hinj hmax _ _ (RMWf_close_readers hinj _ _ hw) ?_
      intro x hx
      exact hQ x (List.drop_subset _ _ hx)

theorem RMWf_makeRM (env : RMEnv) (paths : List String) (max_open : ℕ)
    (hnd : paths.Nodup)
    (hinj : ∀ x ∈ paths, ∀ y ∈ paths, env.size x = env.size y → x = y)
    (hmax : 1 ≤ max_open) :
    RMWf env paths max_open (makeRM env paths max_open) := by
  unfold makeRM
  dsimp only
  apply RMWf_open_readers_op hinj hmax
  · exact ⟨rfl, rfl, rfl, List.nodup_nil, hnd, by simp, fun x hx => hx, by simp,
      fun r hr => Or.inr hr, by simp⟩
  · intro x hx
    exact (mem_sortBy _ _ _).mp (List.take_subset _ _ hx)

theorem RMInvariant_of_RMWf {env : RMEnv} {paths : List String} {max_open : ℕ}
    {st : RMState} (hw : RMWf env paths max_open st) : RMInvariant st := by
  obtain ⟨_, hpaths, hmaxf, _, _, hOp, hCp, hdisj, hcov, hlen⟩ := hw
  refine ⟨by rw [hmaxf]; exact hlen, hdisj, ?_⟩
  intro p
  constructor
  · rintro (h | h)
    · rw [hpaths]; exact hOp p h
    · rw [hpaths]; exact hCp p h
  · intro h
    rw [hpaths] at h
    exact hcov p h

theorem RMWf_fold_queries {env : RMEnv} {paths : List String} {max_open : ℕ}
    (hinj : ∀ x ∈ paths, ∀ y ∈ paths, env.size x = env.size y → x = y)
    (hmax : 1 ≤ max_open) :
    ∀ (queries : List (List String)) (st : RMState), RMWf env paths max_open st →
      (∀ Q ∈ queries, ∀ x ∈ Q, x ∈ paths) →
      RMWf env paths max_open
        (queries.foldl (fun acc Q => (acc.open_readers_op Q).2) st) := by
  intro queries
  induction queries with
  | nil => intro st hw _; exact hw
  | cons Q qs ih =>
    intro st hw hq
    exact ih _ (RMWf_open_readers_op hinj hmax hw (hq Q (List.mem_cons_self Q qs)))
      (fun R hR x hx => hq R (List.mem_cons_of_mem Q hR) x hx)

/-- Claim C4 (amended): when the input files have pairwise distinct sizes
(and at least one reader may be open), the read manager's invariants hold
after construction and across every sequence of `open_readers` operations:
the open-reader count never exceeds `max_open_files`, the open and closed
reader sets are disjoint, and their union is exactly the input path set. -/
theorem c4_amended (env : RMEnv) (paths : List String) (max_open : ℕ)
    (hnd : paths.Nodup) (hmax : 1 ≤ max_open)
    (hinj : ∀ x ∈ paths, ∀ y ∈ paths, env.size x = env.size y → x = y)
    (queries : List (List String))
    (hq : ∀ Q ∈ queries, ∀ x ∈ Q, x ∈ paths) :
    RMInvariant (queries.foldl (fun st Q => (st.open_readers_op Q).2)
      (makeRM env paths max_open)) :=
  RMInvariant_of_RMWf
    (RMWf_fold_queries hinj hmax queries _ (RMWf_makeRM env paths max_open hnd hinj hmax) hq)

/-- Claim C4 (amended, witness): the single-file manager of scenario S5 with
budget 10, queried once for its file, satisfies the invariants. -/
theorem c4_amended_witness :
    RMInvariant ([["f1"]].foldl (fun st Q => (st.open_readers_op Q).2)
      (makeRM c5env ["f1"] 10)) :=
  c4_amended c5env ["f1"] 10 (by decide) (by decide) (by decide) [["f1"]] (by decide)

theorem charListLt_irrefl : ∀ l : List Char, charListLt l l = false := by
  intro l
  induction l with
  | nil => rfl
  | cons c cs ih => simp [charListLt, ih]

theorem charListLt_connex : ∀ l r : List Char,
    charListLt l r = true ∨ charListLt r l = true ∨ l = r := by
  intro l
  induction l with
  | nil =>
    intro r
    cases r with
    | nil => right; right; rfl
    | cons b bs => left; rfl
  | cons a as ih =>
    intro r
    cases r with
    | nil => right; left; rfl
    | cons b bs =>
      rcases lt_trichotomy a b with h | h | h
      · left; simp [charListLt, h]
      · subst h
        rcases ih bs with h2 | h2 | h2
        · left; simp [charListLt, lt_irrefl, h2]
        · right; left; simp [charListLt, lt_irrefl, h2]
        · right; right; rw [h2]
      · right; left; simp [charListLt, h]

theorem charListLt_trans : ∀ l m r : List Char,
    charListLt l m = true → charListLt m r = true → charListLt l r = true := by
  intro l
  induction l with
  | nil =>
    intro m r h1 h2
    cases r with
    | nil =>
      cases m with
      | nil => cases h1
      | cons c cs => cases h2
    | cons b bs => rfl
  | cons a as ih =>
    intro m r h1 h2
    cases m with
    | nil => cases h1
    | cons b bs =>
      cases r with
      | nil => cases h2
      | cons c cs =>
        simp only [charListLt] at h1 h2 ⊢
        rcases lt_trichotomy a b with hab | hab | hab
        · rw [if_pos hab] at h1
          rcases lt_trichotomy b c with hbc | hbc | hbc
          · rw [if_pos (lt_trans hab hbc)]
          · subst hbc
            rw [if_pos hab]
          · rw [if_neg (asymm hbc), if_pos hbc] at h2
            cases h2
        · subst hab
          rw [if_neg (lt_irrefl a), if_neg (lt_irrefl a)] at h1
          rcases lt_trichotomy a c with hac | hac | hac
          · rw [if_pos hac]
          · subst hac
            rw [if_neg (lt_irrefl a), if_neg (lt_irrefl a)] at h2 ⊢
            exact ih bs cs h1 h2
          · rw [if_neg (asymm hac), if_pos hac] at h2
            cases h2
        · rw [if_neg (asymm hab), if_pos hab] at h1
          cases h1

theorem variantLt_irrefl (v : AsmVariant) : variantLt v v = false := by
  unfold variantLt
  simp [charListLt_irrefl]

theorem variantLt_congr_left {y z x : AsmVariant} (hb : z.begin_pos = y.begin_pos)
    (hr : z.ref.length = y.ref.length) (ha : z.alt = y.alt) :
    variantLt z x = variantLt y x := by
  unfold variantLt
  rw [hb, hr, ha]

theorem variantLt_trans {x y z : AsmVariant} (h1 : variantLt x y = true)
    (h2 : variantLt y z = true) : variantLt x z = true := by
  unfold variantLt at h1 h2 ⊢
  split_ifs at h1 h2 ⊢
  all_goals (try simp only [decide_eq_true_eq] at h1)
  all_goals (try simp only [decide_eq_true_eq] at h2)
  all_goals
    first
      | (exact charListLt_trans _ _ _ h1 h2)
      | (simp only [decide_eq_true_eq]; omega)
      | omega

theorem variantLt_connex (l r : AsmVariant) :
    variantLt l r = true ∨ variantLt r l = true ∨
      (l.begin_pos = r.begin_pos ∧ l.ref.length = r.ref.length ∧ l.alt = r.alt) := by
  unfold variantLt
  rcases lt_trichotomy l.begin_pos r.begin_pos with h | h | h
  · left
    rw [if_neg (Nat.ne_of_lt h)]
    exact decide_eq_true h
  · rcases lt_trichotomy l.ref.length r.ref.length with h2 | h2 | h2
    · left
      rw [if_pos h, if_neg (Nat.ne_of_lt h2)]
      exact decide_eq_true h2
    · rcases charListLt_connex l.alt r.alt with h3 | h3 | h3
      · left
        rw [if_pos h, if_pos h2]
        exact h3
      · right; left
        rw [if_pos h.symm, if_pos h2.symm]
        exact h3
      · right; right
        exact ⟨h, h2, h3⟩
    · right; left
      rw [if_pos h.symm, if_neg (Nat.ne_of_lt h2)]
      exact decide_eq_true h2
  · right; left
    rw [if_neg (Nat.ne_of_lt h)]
    exact decide_eq_true h

theorem variantLe_iff {l r : AsmVariant} : variantLe l r = true ↔ variantLt r l = false := by
  unfold variantLe
  cases h : variantLt r l <;> simp

theorem variantLe_trans {x y z : AsmVariant} (h1 : variantLe x y = true)
    (h2 : variantLe y z = true) : variantLe x z = true := by
  rw [variantLe_iff] at h1 h2 ⊢
  by_contra hc
  rw [Bool.not_eq_false] at hc
  rcases variantLt_connex z y with h | h | h
  · rw [h2] at h; cases h
  · have h3 := variantLt_trans h hc
    rw [h1] at h3; cases h3
  · obtain ⟨hb, hr, ha⟩ := h
    rw [variantLt_congr_left hb hr ha] at hc
    rw [h1] at hc; cases hc

theorem variantLe_total (a b : AsmVariant) :
    variantLe a b = true ∨ variantLe b a = true := by
  rw [variantLe_iff, variantLe_iff]
  rcases variantLt_connex b a with h | h | h
  · right
    by_contra hc
    rw [Bool.not_eq_false] at hc
    have h3 := variantLt_trans h hc
    rw [variantLt_irrefl] at h3; cases h3
  · left
    by_contra hc
    rw [Bool.not_eq_false] at hc
    have h3 := variantLt_trans h hc
    rw [variantLt_irrefl] at h3; cases h3
  · left
    rw [variantLt_congr_left h.1 h.2.1 h.2.2, variantLt_irrefl]

theorem variantLt_of_le_not_eqv {l r : AsmVariant} (h1 : variantLe l r = true)
    (h2 : variantEqv l r = false) : variantLt l r = true := by
  rw [variantLe_iff] at h1
  rcases variantLt_connex l r with h | h | h
  · exact h
  · rw [h1] at h; cases h
  · exfalso
    obtain ⟨hb, _, ha⟩ := h
    unfold variantEqv at h2
    rw [hb, ha] at h2
    simp at h2

theorem pairwise_sortInsert (x : AsmVariant) :
    ∀ l : List AsmVariant, l.Pairwise (fun a b => variantLe a b = true) →
      (sortInsert variantLe x l).Pairwise (fun a b => variantLe a b = true) := by
  intro l
  induction l with
  | nil => intro _; simp [sortInsert]
  | cons y ys ih =>
    intro hp
    rw [List.pairwise_cons] at hp
    simp only [sortInsert]
    split
    · rename_i hxy
      rw [List.pairwise_cons]
      refine ⟨?_, List.pairwise_cons.mpr hp⟩
      intro z hz
      rcases List.mem_cons.mp hz with h | h
      · subst h; exact hxy
      · exact variantLe_trans hxy (hp.1 z h)
    · rename_i hxy
      have hyx : variantLe y x = true := by
        rcases variantLe_total x y with h | h
        · exact absurd h hxy
        · exact h
      rw [List.pairwise_cons]
      refine ⟨?_, ih hp.2⟩
      intro z hz
      rcases (mem_sortInsert _ _ _ _).mp hz with h | h
      · subst h; exact hyx
      · exact hp.1 z h

theorem pairwise_sortBy :
    ∀ l : List AsmVariant,
      (sortBy variantLe l).Pairwise (fun a b => variantLe a b = true) := by
  intro l
  induction l with
  | nil => simp [sortBy]
  | cons x xs ih => exact pairwise_sortInsert x _ ih

theorem chain_uniqueAdjGo :
    ∀ (l : List AsmVariant) (kept : AsmVariant),
      (∀ y ∈ l, variantLe kept y = true) →
      l.Pairwise (fun a b => variantLe a b = true) →
      List.Chain' (fun a b => variantLt a b = true)
        (kept :: uniqueAdj.uniqueAdjGo variantEqv kept l) := by
  intro l
  induction l with
  | nil => intro kept _ _; simp [uniqueAdj.uniqueAdjGo]
  | cons y ys ih =>
    intro kept hle hp
    rw [List.pairwise_cons] at hp
    simp only [uniqueAdj.uniqueAdjGo]
    split
    · exact ih kept (fun z hz => hle z (List.mem_cons_of_mem y hz)) hp.2
    · rename_i heqv
      rw [List.chain'_cons]
      refine ⟨?_, ih y hp.1 hp.2⟩
      exact variantLt_of_le_not_eqv (hle y (List.mem_cons_self y ys))
        (Bool.eq_false_iff.mpr heqv)

theorem chain_uniqueAdj (l : List AsmVariant)
    (hp : l.Pairwise (fun a b => variantLe a b = true)) :
    List.Chain' (fun a b => variantLt a b = true) (uniqueAdj variantEqv l) := by
  cases l with
  | nil => simp [uniqueAdj]
  | cons x xs =>
    rw [List.pairwise_cons] at hp
    simp only [uniqueAdj]
    exact chain_uniqueAdjGo xs x hp.1 hp.2

/-- Claim C1 (amended): the variant list returned by `extract_variants` is
always strictly ascending in the `(begin_pos, |ref|, alt)` order — so no two
returned variants repeat a `(begin_pos, alt)` pair in adjacent positions —
though its length can exceed the requested maximum (see the
counterexample). -/
theorem c1_amended_sorted {S : Type} (M : ScoreModel S) (a : Asm S) (max : ℕ) :
    List.Chain' (fun l r => variantLt l r = true) (Asm.extract_variants M a max) := by
  unfold Asm.extract_variants
  split
  · exact List.chain'_nil
  · exact chain_uniqueAdj _ (pairwise_sortBy _)
